import Mathlib

/-!
Verification of the parallel paragraph-search program in src/proyecto1/main.c.

Bytes are modelled as natural numbers; a file and every buffer is a `List Nat`.
The pattern matcher (regcomp/regexec, external to the repository) is an
abstract `List Nat → Bool`; a concrete word-boundary matcher modelled from the
spec is provided for the scenario claims.  The recursive loops of the C code
are embedded as fuel-indexed structural recursions (with fuel chosen large
enough, proved irrelevant below) so that every definition evaluates inside the
kernel on concrete inputs.
-/

set_option maxHeartbeats 1600000
set_option maxRecDepth 2048
set_option linter.unnecessarySeqFocus false
set_option linter.unusedVariables false

namespace Proyecto1

/-- Newline byte value. -/
def NL : Nat := 10

/-- Read-window size: the BUFFER_SIZE constant of main.c. -/
def BUFFER_SIZE : Nat := 8192

/-- One-based position of the last newline byte of a list, if any.  Mirrors the
downward scanning loops of main.c (child_process lines 246-254, and the work
distributor, lines 396-402): the loop runs j from the length down to 1 and
stops at the first j with data j-1 equal to a newline. -/
def scanLastNL : List Nat → Option Nat
  | [] => none
  | a :: rest =>
    match scanLastNL rest with
    | some j => some (j + 1)
    | none => if a = NL then some 1 else none

/-- Index of the first occurrence of two consecutive newline bytes
(find_double_newline, main.c lines 161-168). -/
def find_double_newline : List Nat → Option Nat
  | a :: b :: rest =>
    if a = NL ∧ b = NL then some 0
    else (find_double_newline (b :: rest)).map (· + 1)
  | _ => none

/-- Result of one run of the paragraph-extraction loop: the chunk-match flag it
returns, the candidate records it handed to the matcher (in order), the bytes
it wrote to standard output, and the remaining carry-buffer content. -/
structure ParaResult where
  found : Bool
  records : List (List Nat)
  printed : List Nat
  carry : List Nat
deriving DecidableEq

/-- Fuel-indexed body of process_paragraphs (main.c lines 170-188): repeatedly
find the first blank line, test the bytes before it against the matcher, print
the record plus a blank line on a match, and consume record plus delimiter. -/
def pp_fuel (matcher : List Nat → Bool) : Nat → List Nat → ParaResult
  | 0, carry => ⟨false, [], [], carry⟩
  | fuel + 1, carry =>
    match find_double_newline carry with
    | none => ⟨false, [], [], carry⟩
    | some i =>
      let para := carry.take i
      let r := pp_fuel matcher fuel (carry.drop (i + 2))
      ⟨matcher para || r.found, para :: r.records,
        (if matcher para then para ++ [NL, NL] else []) ++ r.printed, r.carry⟩

/-- process_paragraphs (main.c lines 170-188).  Each loop iteration consumes at
least two bytes, so the carry-buffer length is enough fuel. -/
def process_paragraphs (matcher : List Nat → Bool) (carry : List Nat) : ParaResult :=
  pp_fuel matcher carry.length carry

/-- flush_remaining_paragraph (main.c lines 190-206): the match flag together
with the bytes printed; the caller clears the carry buffer afterwards. -/
def flush_remaining_paragraph (matcher : List Nat → Bool) (carry : List Nat) :
    Bool × List Nat :=
  if carry.length = 0 then (false, [])
  else
    let m := matcher carry
    (m, if m then carry ++ (if carry.getLast? = some NL then [] else [NL]) else [])

/-- Byte count chosen by the work distributor for a read window (main.c lines
386-405): trim to the last newline if one occurs before the end of the window,
else keep the whole window; a zero count falls back to the whole window. -/
def coordinatorBytes (window : List Nat) : Nat :=
  let read_bytes := window.length
  let last_newline :=
    match scanLastNL window with
    | some j => j
    | none => read_bytes
  let bytes := if last_newline < read_bytes then last_newline else read_bytes
  if bytes = 0 then read_bytes else bytes

/-- Usable byte count computed by a worker from its read (child_process, main.c
lines 244-256): keep up to the last newline if there is one, else the whole
read; a zero usable count with a nonempty read falls back to the whole read. -/
def workerUsable (buffer : List Nat) : Nat :=
  let read_bytes := buffer.length
  let usable :=
    if 0 < read_bytes then
      let last_newline :=
        match scanLastNL buffer with
        | some j => j
        | none => 0
      if 0 < last_newline then last_newline else read_bytes
    else read_bytes
  if usable = 0 ∧ 0 < read_bytes then read_bytes else usable

/-- Fuel-indexed chunk assignment sequence of the work distributor (main.c
lines 383-411): starting at an offset, read a window, stop on an empty read,
else assign coordinatorBytes of it and continue past them. -/
def chunks_fuel (file : List Nat) : Nat → Nat → List (Nat × Nat)
  | 0, _ => []
  | fuel + 1, off =>
    if ((file.drop off).take BUFFER_SIZE).length = 0 then []
    else
      (off, coordinatorBytes ((file.drop off).take BUFFER_SIZE)) ::
        chunks_fuel file fuel (off + coordinatorBytes ((file.drop off).take BUFFER_SIZE))

/-- The list of (offset, byte count) ranges the work distributor assigns when
started at a given offset.  Every assignment advances the offset by at least
one byte, so the remaining file length bounds the number of assignments. -/
def chunksFrom (file : List Nat) (off : Nat) : List (Nat × Nat) :=
  chunks_fuel file (file.length - off) off

/-- File offset reached after the first m assigned ranges. -/
def offEnd (file : List Nat) (m : Nat) : Nat :=
  (((chunksFrom file 0).take m).map Prod.snd).sum

/-- A completed chunk as held by the coordinator (ChunkNode, main.c lines
18-26); elapsed time is abstract data carried through unchanged. -/
structure Chunk where
  process_id : Nat
  file_offset : Nat
  bytes_read : Nat
  elapsed_time : Nat
  text : List Nat
deriving DecidableEq

/-- One data line of the run log (write_log_entry, main.c lines 208-211). -/
structure LogEntry where
  process_id : Nat
  file_offset : Nat
  bytes_read : Nat
  elapsed_time : Nat
  found : Bool
deriving DecidableEq

/-- The schedule-independent columns of a log line. -/
def proj3 (e : LogEntry) : Nat × Nat × Bool :=
  (e.file_offset, e.bytes_read, e.found)

/-- All columns of a log line except the timing column. -/
def dropElapsed (e : LogEntry) : Nat × Nat × Nat × Bool :=
  (e.process_id, e.file_offset, e.bytes_read, e.found)

/-- Tail of the sorted insertion walk of insert_chunk_sorted (main.c lines
143-148): advance while the next node's offset is below the new node's. -/
def insert_rest (node : Chunk) : List Chunk → List Chunk
  | [] => [node]
  | c :: rest =>
    if c.file_offset < node.file_offset then c :: insert_rest node rest
    else node :: c :: rest

/-- insert_chunk_sorted (main.c lines 137-149). -/
def insert_chunk_sorted (node : Chunk) : List Chunk → List Chunk
  | [] => [node]
  | c :: rest =>
    if node.file_offset < c.file_offset then node :: c :: rest
    else c :: insert_rest node rest

/-- pop_expected_chunk (main.c lines 151-159): remove and return the head of
the pending list only when its offset equals the expected offset. -/
def pop_expected_chunk (head : List Chunk) (expected : Nat) :
    Option (Chunk × List Chunk) :=
  match head with
  | [] => none
  | c :: rest => if c.file_offset = expected then some (c, rest) else none

/-- Coordinator-owned processing state: the pending reorder list, the
next_offset_to_process cursor, the carry buffer, the log written so far, the
bytes written to standard output, and the candidate records tested so far. -/
structure CoordState where
  pending : List Chunk
  next_offset_to_process : Nat
  carry : List Nat
  log : List LogEntry
  out : List Nat
  records : List (List Nat)
deriving DecidableEq

/-- Body of one iteration of the coordinator's drain loop (main.c lines
424-435): append the ready chunk's payload to the carry buffer, extract
paragraphs, write one log line, and advance next_offset_to_process. -/
def drain_body (matcher : List Nat → Bool) (s : CoordState) (ready : Chunk)
    (rest : List Chunk) : CoordState :=
  let r := process_paragraphs matcher (s.carry ++ ready.text)
  ⟨rest, ready.file_offset + ready.bytes_read, r.carry,
    s.log ++ [⟨ready.process_id, ready.file_offset, ready.bytes_read,
      ready.elapsed_time, r.found⟩],
    s.out ++ r.printed, s.records ++ r.records⟩

/-- Fuel-indexed drain loop: pop expected chunks while available. -/
def drain_fuel (matcher : List Nat → Bool) : Nat → CoordState → CoordState
  | 0, s => s
  | fuel + 1, s =>
    match pop_expected_chunk s.pending s.next_offset_to_process with
    | none => s
    | some (ready, rest) => drain_fuel matcher fuel (drain_body matcher s ready rest)

/-- The drain loop of main.c lines 424-435 (also lines 442-453): each pop
shortens the pending list by one, so its length is enough fuel. -/
def drain (matcher : List Nat → Bool) (s : CoordState) : CoordState :=
  drain_fuel matcher s.pending.length s

/-- Handling of one MSG_RESULT message (main.c lines 412-435): insert the chunk
into the sorted pending list, then drain all now-contiguous chunks. -/
def coord_step (matcher : List Nat → Bool) (s : CoordState) (c : Chunk) : CoordState :=
  drain matcher { s with pending := insert_chunk_sorted c s.pending }

/-- Bytes a worker's fread returns for an assignment (child_process, main.c
line 244): the file contents from the offset, up to the requested count. -/
def worker_read (file : List Nat) (offset bytes : Nat) : List Nat :=
  (file.drop offset).take bytes

/-- The chunk a worker reports for an assignment (child_process, main.c lines
240-265): read, trim to the usable byte count, and send offset, usable count
and the usable payload. -/
def worker_result (file : List Nat) (pid offset bytes elapsed : Nat) : Chunk :=
  let buffer := worker_read file offset bytes
  let usable := workerUsable buffer
  ⟨pid, offset, usable, elapsed, buffer.take usable⟩

/-- One observable event at the coordinator: a work request from worker pid
(whose eventual read is timed by elapsed), or delivery of the k-th in-flight
completed chunk.  Arbitrary event orders model arbitrary worker scheduling. -/
inductive Event where
  | request (pid elapsed : Nat)
  | deliver (k : Nat)
deriving DecidableEq

/-- Whole-system state: the work distributor's cursor and end-of-input flag,
the completed-but-undelivered chunks, and the coordinator processing state. -/
structure SysState where
  next_offset_to_assign : Nat
  finished_assignments : Bool
  inflight : List Chunk
  coord : CoordState
deriving DecidableEq

/-- One step of the multiplexed dispatch loop (main.c lines 359-439).  A
request either is ignored once assignments are finished, discovers end of
input on an empty read, or assigns the next range, whose worker result then
sits in flight; a delivery routes one in-flight chunk to the reorder and
extraction pipeline. -/
def sys_step (matcher : List Nat → Bool) (file : List Nat) (s : SysState) :
    Event → SysState
  | .request pid elapsed =>
    if s.finished_assignments then s
    else
      if ((file.drop s.next_offset_to_assign).take BUFFER_SIZE).length = 0 then
        { s with finished_assignments := true }
      else
        let bytes := coordinatorBytes ((file.drop s.next_offset_to_assign).take BUFFER_SIZE)
        { s with
          next_offset_to_assign := s.next_offset_to_assign + bytes
          inflight := s.inflight ++
            [worker_result file pid s.next_offset_to_assign bytes elapsed] }
  | .deliver k =>
    match s.inflight[k]? with
    | none => s
    | some c =>
      { s with inflight := s.inflight.eraseIdx k
               coord := coord_step matcher s.coord c }

def init_coord : CoordState := ⟨[], 0, [], [], [], []⟩

def init_sys : SysState := ⟨0, false, [], init_coord⟩

/-- The system state after a sequence of events starting from startup. -/
def sys_run (matcher : List Nat → Bool) (file : List Nat) (trace : List Event) :
    SysState :=
  trace.foldl (sys_step matcher file) init_sys

/-- Externally observable outcome of a run: the log lines, the bytes on
standard output, all candidate records tested, and the flush match flag. -/
structure RunResult where
  log : List LogEntry
  out : List Nat
  records : List (List Nat)
  flushFound : Bool
deriving DecidableEq

/-- End-of-run processing (main.c lines 442-456): one final drain pass, then
the terminal flush of the carry buffer.  The flush's candidate record is the
remaining carry content, when nonempty. -/
def finalize (matcher : List Nat → Bool) (s0 : CoordState) : RunResult :=
  let s := drain matcher s0
  let fr := flush_remaining_paragraph matcher s.carry
  ⟨s.log, s.out ++ fr.2,
    s.records ++ (if s.carry.length = 0 then [] else [s.carry]), fr.1⟩

/-- The observable outcome of the run whose coordinator saw the given events. -/
def program_run (matcher : List Nat → Bool) (file : List Nat)
    (trace : List Event) : RunResult :=
  finalize matcher (sys_run matcher file trace).coord

/-- A trace is complete when end of input was discovered and every completed
chunk was delivered: this is the situation at normal termination of the
dispatch loop. -/
abbrev Complete (matcher : List Nat → Bool) (file : List Nat)
    (trace : List Event) : Prop :=
  (sys_run matcher file trace).finished_assignments = true ∧
    (sys_run matcher file trace).inflight = []

/-- One step of the reference sequential run: chunk ranges processed strictly
in file order by a single worker with id 0 and zero elapsed time. -/
def seq_acc_step (matcher : List Nat → Bool) (file : List Nat)
    (acc : CoordState) (ob : Nat × Nat) : CoordState :=
  coord_step matcher acc (worker_result file 0 ob.1 ob.2 0)

/-- Coordinator state of the reference sequential run after the first m chunk
ranges. -/
def seq_state (matcher : List Nat → Bool) (file : List Nat) (m : Nat) : CoordState :=
  ((chunksFrom file 0).take m).foldl (seq_acc_step matcher file) init_coord

/-- The chunk c is the worker report for the i-th assigned range (any worker
id and timing). -/
def isW (file : List Nat) (i : Nat) (c : Chunk) : Prop :=
  ∃ ob : Nat × Nat, (chunksFrom file 0)[i]? = some ob ∧
    c = worker_result file c.process_id ob.1 ob.2 c.elapsed_time

/-- Two coordinator states agree on everything except worker ids and timings
in the log. -/
def projEq (s t : CoordState) : Prop :=
  s.carry = t.carry ∧ s.out = t.out ∧ s.records = t.records ∧
    s.log.map proj3 = t.log.map proj3 ∧
    s.next_offset_to_process = t.next_offset_to_process

/-- Coordinator invariant: the pending list holds the worker reports for the
index list I, sorted, all strictly between the consumed prefix m and the end,
and the processing state agrees with the reference sequential run after m
chunks. -/
def CoordInv (matcher : List Nat → Bool) (file : List Nat) (m : Nat) (I : List Nat)
    (s : CoordState) : Prop :=
  List.Forall₂ (isW file) I s.pending ∧
    I.Pairwise (· < ·) ∧
    (∀ i ∈ I, m < i ∧ i < (chunksFrom file 0).length) ∧
    m ≤ (chunksFrom file 0).length ∧
    projEq s (seq_state matcher file m)

/-- Whole-system invariant: n ranges assigned so far, m consumed, and the
indices of in-flight plus pending chunks are exactly the assigned-but-not-yet
consumed ones. -/
def SysInv (matcher : List Nat → Bool) (file : List Nat) (s : SysState) : Prop :=
  ∃ n m I J,
    n ≤ (chunksFrom file 0).length ∧ m ≤ n ∧
    s.next_offset_to_assign = offEnd file n ∧
    (s.finished_assignments = true → n = (chunksFrom file 0).length) ∧
    List.Forall₂ (isW file) J s.inflight ∧
    CoordInv matcher file m I s.coord ∧
    (I ++ J).Perm (List.range' m (n - m))

/-- Fuel-indexed blank-line splitting of a byte sequence. -/
def paragraphsSpec_fuel : Nat → List Nat → List (List Nat)
  | 0, s => if s.length = 0 then [] else [s]
  | fuel + 1, s =>
    match find_double_newline s with
    | none => if s.length = 0 then [] else [s]
    | some i => s.take i :: paragraphsSpec_fuel fuel (s.drop (i + 2))

/-- Specification-side notion of the blank-line-delimited paragraphs of a byte
sequence: repeatedly split off the bytes before the first blank line; a
nonempty remainder without a blank line is one final paragraph. -/
def paragraphsSpec (s : List Nat) : List (List Nat) :=
  paragraphsSpec_fuel s.length s

/-- Whether consecutive log lines are contiguous: each next offset equals the
previous offset plus the previous byte count. -/
def logContiguous : List LogEntry → Bool
  | a :: b :: rest =>
    decide (b.file_offset = a.file_offset + a.bytes_read) && logContiguous (b :: rest)
  | _ => true

/-- Whether the offsets of the log lines are strictly increasing. -/
def logStrictIncr : List LogEntry → Bool
  | a :: b :: rest =>
    decide (a.file_offset < b.file_offset) && logStrictIncr (b :: rest)
  | _ => true

/-- Log lines form a chain from one offset to another: offsets are contiguous,
byte counts positive, starting at the first offset and ending at the second. -/
def logChain : Nat → List LogEntry → Nat → Bool
  | e, [], stop => decide (e = stop)
  | e, a :: rest, stop =>
    decide (a.file_offset = e) && decide (0 < a.bytes_read) &&
      logChain (a.file_offset + a.bytes_read) rest stop

/-- Modelled from the spec: alphanumeric-or-underscore bytes, the word
characters of the pattern-boundary wrapping (regcomp and regexec are external
library code; spec section 6, pattern semantics). -/
def isWordChar (c : Nat) : Bool :=
  (decide (48 ≤ c) && decide (c ≤ 57)) || (decide (65 ≤ c) && decide (c ≤ 90)) ||
    (decide (97 ≤ c) && decide (c ≤ 122)) || decide (c = 95)

/-- Modelled from the spec: the literal pattern occurs at position i of s and
the occurrence is not immediately preceded or followed by a word character. -/
def matchesAt (pat s : List Nat) (i : Nat) : Bool :=
  decide ((s.drop i).take pat.length = pat) &&
    (decide (i = 0) || !isWordChar ((s[i - 1]?).getD NL)) &&
    !isWordChar ((s[i + pat.length]?).getD NL)

/-- Modelled from the spec: existence-only word-boundary-anchored match of a
literal pattern, standing in for the wrapped regexec of main.c lines 213-222
(regcomp and regexec themselves are external library code). -/
def wordMatch (pat s : List Nat) : Bool :=
  (List.range (s.length + 1)).any (matchesAt pat s)

/-- Byte list of the pattern alpha. -/
def alphaPat : List Nat := [97, 108, 112, 104, 97]

/-- Byte list of the scenario input: alpha beta, blank line, gamma alpha,
blank line, delta, newline (31 bytes). -/
def alphaFile : List Nat :=
  [97, 108, 112, 104, 97, 32, 98, 101, 116, 97, 10, 10,
   103, 97, 109, 109, 97, 32, 97, 108, 112, 104, 97, 10, 10,
   100, 101, 108, 116, 97, 10]

/-- A complete two-worker trace on the scenario input: worker 0 requests and
receives the only range, worker 1's request discovers end of input, worker 0
delivers its chunk. -/
def alphaTrace : List Event := [.request 0 0, .request 1 0, .deliver 0]

/-- Input consisting of one line and a final paragraph with no trailing
newline. -/
def xxFile : List Nat := [120, 120, 10, 97, 108, 112, 104, 97]

/-- A complete single-worker trace on xxFile: two assignments, delivered in
order, and a final request that discovers end of input. -/
def xxTrace : List Event :=
  [.request 0 0, .deliver 0, .request 0 0, .deliver 0, .request 0 0]

/-- Two-byte input consisting of one line. -/
def smallFile : List Nat := [97, 10]

/-- Byte list of the single-letter pattern a. -/
def aPat : List Nat := [97]

/-- Complete trace on smallFile in which worker 0 processes the only chunk. -/
def smallTrace0 : List Event := [.request 0 0, .deliver 0, .request 0 0]

/-- Complete trace on smallFile in which worker 1 processes the only chunk. -/
def smallTrace1 : List Event := [.request 1 0, .deliver 0, .request 1 0]

/-- A file whose first line is longer than the read window: 8193 letters
followed by one newline. -/
def longLineFile : List Nat := List.replicate 8193 97 ++ [NL]

/-! ### Lemmas about the newline scans -/

theorem scanLastNL_pos : ∀ {l : List Nat} {j : Nat}, scanLastNL l = some j → 1 ≤ j := by
  intro l
  induction l with
  | nil => intro j h; simp [scanLastNL] at h
  | cons a rest ih =>
    intro j h
    simp only [scanLastNL] at h
    cases hr : scanLastNL rest with
    | some j' => rw [hr] at h; simp at h; omega
    | none =>
      rw [hr] at h
      by_cases ha : a = NL <;> simp [ha] at h <;> omega

theorem scanLastNL_le : ∀ {l : List Nat} {j : Nat}, scanLastNL l = some j → j ≤ l.length := by
  intro l
  induction l with
  | nil => intro j h; simp [scanLastNL] at h
  | cons a rest ih =>
    intro j h
    simp only [scanLastNL] at h
    cases hr : scanLastNL rest with
    | some j' =>
      rw [hr] at h; simp at h
      have := ih hr
      simp [← h]; omega
    | none =>
      rw [hr] at h
      by_cases ha : a = NL <;> simp [ha] at h
      simp [← h]

theorem scanLastNL_get : ∀ {l : List Nat} {j : Nat}, scanLastNL l = some j →
    l[j - 1]? = some NL := by
  intro l
  induction l with
  | nil => intro j h; simp [scanLastNL] at h
  | cons a rest ih =>
    intro j h
    simp only [scanLastNL] at h
    cases hr : scanLastNL rest with
    | some j' =>
      rw [hr] at h; simp at h
      obtain ⟨k, rfl⟩ : ∃ k, j' = k + 1 := ⟨j' - 1, by have := scanLastNL_pos hr; omega⟩
      have hre := ih hr
      simp at hre
      simp [← h, hre]
    | none =>
      rw [hr] at h
      by_cases ha : a = NL <;> simp [ha] at h
      simp [← h, ha]

theorem scanLastNL_none : ∀ {l : List Nat}, scanLastNL l = none → NL ∉ l := by
  intro l
  induction l with
  | nil => intro _ h; simp at h
  | cons a rest ih =>
    intro h
    simp only [scanLastNL] at h
    cases hr : scanLastNL rest with
    | some j' => rw [hr] at h; simp at h
    | none =>
      rw [hr] at h
      by_cases ha : a = NL <;> simp [ha] at h ⊢
      exact ⟨fun hc => ha hc.symm, ih hr⟩

theorem scanLastNL_getLast : ∀ {l : List Nat}, l.getLast? = some NL →
    scanLastNL l = some l.length := by
  intro l
  induction l with
  | nil => intro h; simp at h
  | cons a rest ih =>
    intro h
    cases rest with
    | nil =>
      simp at h
      simp [scanLastNL, h]
    | cons b r2 =>
      rw [List.getLast?_cons_cons] at h
      have hh := ih h
      have hstep : scanLastNL (a :: b :: r2) = some ((b :: r2).length + 1) := by
        show (match scanLastNL (b :: r2) with
              | some j => some (j + 1)
              | none => if a = NL then some 1 else none) = some ((b :: r2).length + 1)
        rw [hh]
      simpa using hstep

/-! ### Lemmas about find_double_newline -/

theorem fdn_le : ∀ {l : List Nat} {i : Nat}, find_double_newline l = some i →
    i + 2 ≤ l.length := by
  intro l
  induction l with
  | nil => intro i h; simp [find_double_newline] at h
  | cons a rest ih =>
    intro i h
    cases rest with
    | nil => simp [find_double_newline] at h
    | cons b r2 =>
      simp only [find_double_newline] at h
      split at h
      · simp at h; simp [← h]
      · cases hf : find_double_newline (b :: r2) with
        | none => rw [hf] at h; simp at h
        | some i' =>
          rw [hf] at h; simp at h
          have := ih hf
          simp at this
          simp [← h]; omega

theorem fdn_none_no_pair : ∀ {l : List Nat}, find_double_newline l = none →
    ∀ k, ¬(l[k]? = some NL ∧ l[k + 1]? = some NL) := by
  intro l
  induction l with
  | nil => intro _ k hk; simp at hk
  | cons a rest ih =>
    intro h k hk
    cases rest with
    | nil =>
      rcases hk with ⟨h1, h2⟩
      cases k with
      | zero => simp at h2
      | succ k => simp at h1
    | cons b r2 =>
      simp only [find_double_newline] at h
      split at h
      · simp at h
      · rename_i hcond
        have hrest : find_double_newline (b :: r2) = none := by
          cases hf : find_double_newline (b :: r2) with
          | none => rfl
          | some i' => rw [hf] at h; simp at h
        cases k with
        | zero =>
          rcases hk with ⟨h1, h2⟩
          simp only [List.getElem?_cons_zero, Option.some.injEq] at h1
          exact hcond ⟨h1, by simpa using h2⟩
        | succ k =>
          rcases hk with ⟨h1, h2⟩
          refine ih hrest k ⟨?_, ?_⟩
          · simpa using h1
          · simpa using h2

theorem fdn_append_some : ∀ {s : List Nat} {i : Nat} (t : List Nat),
    find_double_newline s = some i → find_double_newline (s ++ t) = some i := by
  intro s
  induction s with
  | nil => intro i t h; simp [find_double_newline] at h
  | cons a rest ih =>
    intro i t h
    cases rest with
    | nil => simp [find_double_newline] at h
    | cons b r2 =>
      simp only [find_double_newline] at h
      show find_double_newline (a :: b :: (r2 ++ t)) = some i
      simp only [find_double_newline]
      split at h <;> rename_i hcond
      · simp at h; simp [hcond, ← h]
      · rw [if_neg hcond]
        cases hf : find_double_newline (b :: r2) with
        | none => rw [hf] at h; simp at h
        | some i' =>
          rw [hf] at h; simp at h
          have := ih t hf
          show (find_double_newline ((b :: r2) ++ t)).map (· + 1) = some i
          rw [this]
          simp [← h]

/-! ### Fuel congruence and unfolding equations -/

theorem pp_fuel_congr (m : List Nat → Bool) :
    ∀ (f₁ : Nat), ∀ {f₂ : Nat} {c : List Nat}, c.length ≤ f₁ → c.length ≤ f₂ →
    pp_fuel m f₁ c = pp_fuel m f₂ c := by
  intro f₁
  induction f₁ with
  | zero =>
    intro f₂ c h1 h2
    have : c = [] := List.length_eq_zero.mp (Nat.le_zero.mp h1)
    subst this
    cases f₂ <;> simp [pp_fuel, find_double_newline]
  | succ f₁ ih =>
    intro f₂ c h1 h2
    cases hf : find_double_newline c with
    | none =>
      cases f₂ with
      | zero => simp [pp_fuel, hf]
      | succ f₂ => simp [pp_fuel, hf]
    | some i =>
      have hlen := fdn_le hf
      cases f₂ with
      | zero => omega
      | succ f₂ =>
        simp only [pp_fuel, hf]
        have hd : (c.drop (i + 2)).length ≤ f₁ := by simp [List.length_drop]; omega
        have hd2 : (c.drop (i + 2)).length ≤ f₂ := by simp [List.length_drop]; omega
        rw [ih hd hd2]

theorem pp_eq (m : List Nat → Bool) (c : List Nat) :
    process_paragraphs m c =
      match find_double_newline c with
      | none => ⟨false, [], [], c⟩
      | some i =>
        let r := process_paragraphs m (c.drop (i + 2))
        ⟨m (c.take i) || r.found, c.take i :: r.records,
          (if m (c.take i) then c.take i ++ [NL, NL] else []) ++ r.printed, r.carry⟩ := by
  cases hf : find_double_newline c with
  | none =>
    cases hl : c.length with
    | zero => simp [process_paragraphs, hl, pp_fuel, hf]
    | succ k => simp [process_paragraphs, hl, pp_fuel, hf]
  | some i =>
    have hlen := fdn_le hf
    cases hl : c.length with
    | zero => omega
    | succ k =>
      simp only [process_paragraphs, hl, pp_fuel, hf]
      have : pp_fuel m k (c.drop (i + 2)) = pp_fuel m (c.drop (i + 2)).length (c.drop (i + 2)) := by
        apply pp_fuel_congr
        · simp [List.length_drop]; omega
        · exact Nat.le_refl _
      rw [this]

theorem pop_some {l : List Chunk} {e : Nat} {c : Chunk} {rest : List Chunk}
    (h : pop_expected_chunk l e = some (c, rest)) :
    l = c :: rest ∧ c.file_offset = e := by
  cases l with
  | nil => simp [pop_expected_chunk] at h
  | cons c0 r0 =>
    simp only [pop_expected_chunk] at h
    split at h
    · simp at h
      rcases h with ⟨rfl, rfl⟩
      exact ⟨rfl, by assumption⟩
    · simp at h

theorem drain_fuel_congr (m : List Nat → Bool) :
    ∀ (f₁ : Nat), ∀ {f₂ : Nat} {s : CoordState}, s.pending.length ≤ f₁ →
    s.pending.length ≤ f₂ → drain_fuel m f₁ s = drain_fuel m f₂ s := by
  intro f₁
  induction f₁ with
  | zero =>
    intro f₂ s h1 h2
    have hp : s.pending = [] := List.length_eq_zero.mp (Nat.le_zero.mp h1)
    have hpop : pop_expected_chunk s.pending s.next_offset_to_process = none := by
      rw [hp]; rfl
    cases f₂ <;> simp [drain_fuel, hpop]
  | succ f₁ ih =>
    intro f₂ s h1 h2
    cases hpop : pop_expected_chunk s.pending s.next_offset_to_process with
    | none => cases f₂ <;> simp [drain_fuel, hpop]
    | some cr =>
      obtain ⟨c, rest⟩ := cr
      obtain ⟨hpend, hoff⟩ := pop_some hpop
      have hlen : s.pending.length = rest.length + 1 := by rw [hpend]; simp
      cases f₂ with
      | zero => omega
      | succ f₂ =>
        simp only [drain_fuel, hpop]
        apply ih
        · simp [drain_body]; omega
        · simp [drain_body]; omega

theorem drain_eq (m : List Nat → Bool) (s : CoordState) :
    drain m s =
      match pop_expected_chunk s.pending s.next_offset_to_process with
      | none => s
      | some (c, rest) => drain m (drain_body m s c rest) := by
  cases hpop : pop_expected_chunk s.pending s.next_offset_to_process with
  | none =>
    cases hp : s.pending with
    | nil => simp [drain, hp, drain_fuel]
    | cons c r =>
      rw [hp] at hpop
      simp [drain, hp, drain_fuel, hpop]
  | some cr =>
    obtain ⟨c, rest⟩ := cr
    obtain ⟨hpend, hoff⟩ := pop_some hpop
    rw [hpend] at hpop
    simp only [drain, hpend, List.length_cons, drain_fuel, hpop]
    have hbody : (drain_body m s c rest).pending = rest := rfl
    rw [hbody]

theorem scanLastNL_some_bytes {w : List Nat} {j : Nat} (h : scanLastNL w = some j) :
    1 ≤ coordinatorBytes w := by
  have h1 := scanLastNL_pos h
  have h2 := scanLastNL_le h
  simp only [coordinatorBytes, h]
  split <;> split <;> omega

theorem coordinatorBytes_pos {w : List Nat} (h : w ≠ []) : 1 ≤ coordinatorBytes w := by
  have hlen : 1 ≤ w.length := by
    cases w with
    | nil => exact absurd rfl h
    | cons a r => simp
  cases hs : scanLastNL w with
  | some j => exact scanLastNL_some_bytes hs
  | none =>
    simp only [coordinatorBytes, hs]
    split <;> split <;> omega

theorem coordinatorBytes_le (w : List Nat) : coordinatorBytes w ≤ w.length := by
  cases hs : scanLastNL w with
  | some j =>
    have := scanLastNL_le hs
    simp only [coordinatorBytes, hs]
    split <;> split <;> omega
  | none =>
    simp only [coordinatorBytes, hs]
    split <;> split <;> omega

theorem chunks_fuel_congr (file : List Nat) :
    ∀ (f₁ : Nat), ∀ {f₂ off : Nat}, file.length - off ≤ f₁ → file.length - off ≤ f₂ →
    chunks_fuel file f₁ off = chunks_fuel file f₂ off := by
  intro f₁
  induction f₁ with
  | zero =>
    intro f₂ off h1 h2
    have hw : ((file.drop off).take BUFFER_SIZE).length = 0 := by
      simp [List.length_take, List.length_drop, BUFFER_SIZE]
      omega
    cases f₂ <;> simp [chunks_fuel, hw]
  | succ f₁ ih =>
    intro f₂ off h1 h2
    by_cases hw : ((file.drop off).take BUFFER_SIZE).length = 0
    · cases f₂ <;> simp [chunks_fuel, hw]
    · have hoff : off < file.length := by
        simp [List.length_take, List.length_drop, BUFFER_SIZE] at hw
        omega
      have hb : 1 ≤ coordinatorBytes ((file.drop off).take BUFFER_SIZE) := by
        apply coordinatorBytes_pos
        intro hnil
        exact hw (by rw [hnil]; rfl)
      cases f₂ with
      | zero => omega
      | succ f₂ =>
        have hrec : chunks_fuel file f₁ (off + coordinatorBytes ((file.drop off).take BUFFER_SIZE)) =
            chunks_fuel file f₂ (off + coordinatorBytes ((file.drop off).take BUFFER_SIZE)) :=
          ih (by omega) (by omega)
        simp only [chunks_fuel, if_neg hw]
        rw [hrec]

theorem chunksFrom_eq (file : List Nat) (off : Nat) :
    chunksFrom file off =
      if ((file.drop off).take BUFFER_SIZE).length = 0 then []
      else
        (off, coordinatorBytes ((file.drop off).take BUFFER_SIZE)) ::
          chunksFrom file (off + coordinatorBytes ((file.drop off).take BUFFER_SIZE)) := by
  by_cases hw : ((file.drop off).take BUFFER_SIZE).length = 0
  · cases hfl : file.length - off with
    | zero => simp [chunksFrom, hfl, chunks_fuel, hw]
    | succ k => simp [chunksFrom, hfl, chunks_fuel, hw]
  · have hoff : off < file.length := by
      simp [List.length_take, List.length_drop, BUFFER_SIZE] at hw
      omega
    have hb : 1 ≤ coordinatorBytes ((file.drop off).take BUFFER_SIZE) := by
      apply coordinatorBytes_pos
      intro hnil
      exact hw (by rw [hnil]; rfl)
    cases hfl : file.length - off with
    | zero => omega
    | succ k =>
      simp only [chunksFrom, hfl, chunks_fuel, if_neg hw]
      congr 1
      apply chunks_fuel_congr <;> omega

/-! ### Structural lemmas about process_paragraphs -/

theorem fdn_get : ∀ {l : List Nat} {i : Nat}, find_double_newline l = some i →
    l[i]? = some NL ∧ l[i + 1]? = some NL := by
  intro l
  induction l with
  | nil => intro i h; simp [find_double_newline] at h
  | cons a rest ih =>
    intro i h
    cases rest with
    | nil => simp [find_double_newline] at h
    | cons b r2 =>
      simp only [find_double_newline] at h
      split at h <;> rename_i hcond
      · simp at h
        subst h
        simp [hcond.1, hcond.2]
      · cases hf : find_double_newline (b :: r2) with
        | none => rw [hf] at h; simp at h
        | some i' =>
          rw [hf] at h; simp at h
          obtain ⟨g1, g2⟩ := ih hf
          subst h
          constructor
          · simpa using g1
          · simpa using g2

theorem pp_append (m : List Nat → Bool) : ∀ (n : Nat) (s t : List Nat), s.length = n →
    process_paragraphs m (s ++ t) =
      ⟨(process_paragraphs m s).found ||
         (process_paragraphs m ((process_paragraphs m s).carry ++ t)).found,
       (process_paragraphs m s).records ++
         (process_paragraphs m ((process_paragraphs m s).carry ++ t)).records,
       (process_paragraphs m s).printed ++
         (process_paragraphs m ((process_paragraphs m s).carry ++ t)).printed,
       (process_paragraphs m ((process_paragraphs m s).carry ++ t)).carry⟩ := by
  intro n
  induction n using Nat.strong_induction_on with
  | _ n ih =>
    intro s t hn
    cases hf : find_double_newline s with
    | none =>
      rw [pp_eq m s, hf]
      simp
    | some i =>
      have hi := fdn_le hf
      have hfa := fdn_append_some t hf
      have htake : (s ++ t).take i = s.take i := List.take_append_of_le_length (by omega)
      have hdrop : (s ++ t).drop (i + 2) = s.drop (i + 2) ++ t :=
        List.drop_append_of_le_length (by omega)
      have hlen : (s.drop (i + 2)).length < n := by
        simp [List.length_drop]; omega
      have hrec := ih _ hlen (s.drop (i + 2)) t rfl
      rw [pp_eq m (s ++ t), hfa, pp_eq m s, hf]
      simp only [htake, hdrop, hrec]
      simp [Bool.or_assoc, List.append_assoc]

theorem pp_printed (m : List Nat → Bool) : ∀ (n : Nat) (c : List Nat), c.length = n →
    (process_paragraphs m c).printed =
      (((process_paragraphs m c).records.filter m).map (· ++ [NL, NL])).flatten := by
  intro n
  induction n using Nat.strong_induction_on with
  | _ n ih =>
    intro c hn
    cases hf : find_double_newline c with
    | none => rw [pp_eq m c, hf]; simp
    | some i =>
      have hi := fdn_le hf
      have hlen : (c.drop (i + 2)).length < n := by simp [List.length_drop]; omega
      have hrec := ih _ hlen (c.drop (i + 2)) rfl
      rw [pp_eq m c, hf]
      simp only [List.filter_cons]
      by_cases hm : m (c.take i) <;> simp [hm, hrec]

theorem fdn_split : ∀ {l : List Nat} {i : Nat}, find_double_newline l = some i →
    l = l.take i ++ [NL, NL] ++ l.drop (i + 2) := by
  intro l
  induction l with
  | nil => intro i h; simp [find_double_newline] at h
  | cons a rest ih =>
    intro i h
    cases rest with
    | nil => simp [find_double_newline] at h
    | cons b r2 =>
      simp only [find_double_newline] at h
      split at h <;> rename_i hcond
      · simp at h
        subst h
        simp [hcond.1, hcond.2]
      · cases hf : find_double_newline (b :: r2) with
        | none => rw [hf] at h; simp at h
        | some i' =>
          rw [hf] at h; simp at h
          have hrec := ih hf
          subst h
          calc a :: b :: r2 = a :: ((b :: r2).take i' ++ [NL, NL] ++ (b :: r2).drop (i' + 2)) := by
                rw [← hrec]
            _ = (a :: b :: r2).take (i' + 1) ++ [NL, NL] ++ (a :: b :: r2).drop (i' + 1 + 2) := by
                simp

theorem pp_concat (m : List Nat → Bool) : ∀ (n : Nat) (c : List Nat), c.length = n →
    c = (((process_paragraphs m c).records).map (· ++ [NL, NL])).flatten ++
      (process_paragraphs m c).carry := by
  intro n
  induction n using Nat.strong_induction_on with
  | _ n ih =>
    intro c hn
    cases hf : find_double_newline c with
    | none => rw [pp_eq m c, hf]; simp
    | some i =>
      have hi := fdn_le hf
      have hlen : (c.drop (i + 2)).length < n := by simp [List.length_drop]; omega
      have hrec := ih _ hlen (c.drop (i + 2)) rfl
      have hsplit := fdn_split hf
      rw [pp_eq m c, hf]
      simp only [List.map_cons, List.flatten_cons, List.append_assoc]
      rw [← hrec]
      conv_lhs => rw [hsplit]
      simp [List.append_assoc]

theorem pp_carry_fdn (m : List Nat → Bool) : ∀ (n : Nat) (c : List Nat), c.length = n →
    find_double_newline (process_paragraphs m c).carry = none := by
  intro n
  induction n using Nat.strong_induction_on with
  | _ n ih =>
    intro c hn
    cases hf : find_double_newline c with
    | none => rw [pp_eq m c, hf]; simpa using hf
    | some i =>
      have hi := fdn_le hf
      have hlen : (c.drop (i + 2)).length < n := by simp [List.length_drop]; omega
      have hrec := ih _ hlen (c.drop (i + 2)) rfl
      rw [pp_eq m c, hf]
      simpa using hrec

theorem ps_fuel_congr : ∀ (f₁ : Nat), ∀ {f₂ : Nat} {s : List Nat}, s.length ≤ f₁ →
    s.length ≤ f₂ → paragraphsSpec_fuel f₁ s = paragraphsSpec_fuel f₂ s := by
  intro f₁
  induction f₁ with
  | zero =>
    intro f₂ s h1 h2
    have : s = [] := List.length_eq_zero.mp (Nat.le_zero.mp h1)
    subst this
    cases f₂ <;> simp [paragraphsSpec_fuel, find_double_newline]
  | succ f₁ ih =>
    intro f₂ s h1 h2
    cases hf : find_double_newline s with
    | none =>
      cases f₂ with
      | zero =>
        have : s = [] := List.length_eq_zero.mp (Nat.le_zero.mp h2)
        subst this
        simp [paragraphsSpec_fuel, find_double_newline]
      | succ f₂ => simp [paragraphsSpec_fuel, hf]
    | some i =>
      have hlen := fdn_le hf
      cases f₂ with
      | zero => omega
      | succ f₂ =>
        have hrec : paragraphsSpec_fuel f₁ (s.drop (i + 2)) =
            paragraphsSpec_fuel f₂ (s.drop (i + 2)) :=
          ih (by simp [List.length_drop]; omega) (by simp [List.length_drop]; omega)
        simp only [paragraphsSpec_fuel, hf]
        rw [hrec]

theorem ps_eq (s : List Nat) :
    paragraphsSpec s =
      match find_double_newline s with
      | none => if s.length = 0 then [] else [s]
      | some i => s.take i :: paragraphsSpec (s.drop (i + 2)) := by
  cases hf : find_double_newline s with
  | none =>
    cases hl : s.length with
    | zero => simp [paragraphsSpec, hl, paragraphsSpec_fuel, hf]
    | succ k => simp [paragraphsSpec, hl, paragraphsSpec_fuel, hf, hl]
  | some i =>
    have hlen := fdn_le hf
    cases hl : s.length with
    | zero => omega
    | succ k =>
      simp only [paragraphsSpec, hl, paragraphsSpec_fuel, hf]
      congr 1
      apply ps_fuel_congr
      · simp [List.length_drop]; omega
      · exact Nat.le_refl _

theorem pp_records_spec (m : List Nat → Bool) : ∀ (n : Nat) (c : List Nat), c.length = n →
    (process_paragraphs m c).records ++
      (if (process_paragraphs m c).carry.length = 0 then []
       else [(process_paragraphs m c).carry]) = paragraphsSpec c := by
  intro n
  induction n using Nat.strong_induction_on with
  | _ n ih =>
    intro c hn
    cases hf : find_double_newline c with
    | none =>
      rw [pp_eq m c, hf, ps_eq c, hf]
      by_cases hc : c.length = 0
      · have : c = [] := List.length_eq_zero.mp hc
        subst this
        simp
      · simp [hc]
    | some i =>
      have hi := fdn_le hf
      have hlen : (c.drop (i + 2)).length < n := by simp [List.length_drop]; omega
      have hrec := ih _ hlen (c.drop (i + 2)) rfl
      rw [pp_eq m c, hf, ps_eq c, hf]
      simpa using hrec

theorem pp_size (m : List Nat → Bool) : ∀ (n : Nat) (c : List Nat), c.length = n →
    2 * (process_paragraphs m c).records.length + (process_paragraphs m c).carry.length ≤
      c.length := by
  intro n
  induction n using Nat.strong_induction_on with
  | _ n ih =>
    intro c hn
    cases hf : find_double_newline c with
    | none => rw [pp_eq m c, hf]; simp
    | some i =>
      have hi := fdn_le hf
      have hlen : (c.drop (i + 2)).length < n := by simp [List.length_drop]; omega
      have hrec := ih _ hlen (c.drop (i + 2)) rfl
      rw [pp_eq m c, hf]
      simp only [List.length_cons, List.length_drop] at hrec ⊢
      omega

/-! ### Lemmas about the worker's trimming -/

theorem scanLastNL_of_not_mem {l : List Nat} (h : NL ∉ l) : scanLastNL l = none := by
  cases hs : scanLastNL l with
  | none => rfl
  | some j =>
    exfalso
    have hg := scanLastNL_get hs
    exact h (List.getElem?_mem hg)

/-- Closed form of the worker's trimming: the position of the last newline when
there is one, else the whole read. -/
theorem workerUsable_spec (buffer : List Nat) :
    workerUsable buffer =
      match scanLastNL buffer with
      | some j => j
      | none => buffer.length := by
  cases hs : scanLastNL buffer with
  | none =>
    simp only [workerUsable, hs]
    by_cases hl : 0 < buffer.length
    · have hne : ¬(buffer.length = 0 ∧ 0 < buffer.length) := by omega
      simp [hl, hne]
    · have hl0 : buffer.length = 0 := by omega
      simp [hl0]
  | some j =>
    have hj := scanLastNL_pos hs
    have hjl := scanLastNL_le hs
    have hl : 0 < buffer.length := by omega
    have hj0 : 0 < j := hj
    have hjne : j ≠ 0 := by omega
    simp only [workerUsable, hs]
    simp [hl, hj0, hjne]

/-- Closed form of the work distributor's trimming. -/
theorem coordinatorBytes_spec (w : List Nat) :
    coordinatorBytes w =
      match scanLastNL w with
      | some j => if j < w.length then j else w.length
      | none => w.length := by
  cases hs : scanLastNL w with
  | none =>
    simp only [coordinatorBytes, hs]
    by_cases hl : w.length = 0 <;> simp [hl]
  | some j =>
    have hj := scanLastNL_pos hs
    have hjl := scanLastNL_le hs
    simp only [coordinatorBytes, hs]
    by_cases hlt : j < w.length
    · have : j ≠ 0 := by omega
      simp [hlt, this]
    · have : w.length ≠ 0 := by omega
      simp [hlt, this]

theorem workerUsable_no_newline {buffer : List Nat} (h : NL ∉ buffer) :
    workerUsable buffer = buffer.length := by
  rw [workerUsable_spec, scanLastNL_of_not_mem h]

theorem workerUsable_pos {buffer : List Nat} (h : buffer ≠ []) :
    1 ≤ workerUsable buffer := by
  have hl : 0 < buffer.length := List.length_pos.mpr h
  rw [workerUsable_spec]
  cases hs : scanLastNL buffer with
  | none => exact hl
  | some j => exact scanLastNL_pos hs

theorem workerUsable_le (buffer : List Nat) : workerUsable buffer ≤ buffer.length := by
  rw [workerUsable_spec]
  cases hs : scanLastNL buffer with
  | none => exact Nat.le_refl _
  | some j => exact scanLastNL_le hs

/-- The worker's trim keeps exactly the bytes the coordinator assigned: the
coordinator already trimmed the window to end at a newline (or to contain
none), so the worker's own scan finds nothing to remove. -/
theorem workerUsable_take_coordinatorBytes {w : List Nat} (h : w ≠ []) :
    workerUsable (w.take (coordinatorBytes w)) = coordinatorBytes w := by
  have hlen : 0 < w.length := List.length_pos.mpr h
  cases hs : scanLastNL w with
  | none =>
    have hb : coordinatorBytes w = w.length := by rw [coordinatorBytes_spec, hs]
    rw [hb, List.take_length, workerUsable_spec, hs]
  | some j =>
    have hj1 := scanLastNL_pos hs
    have hj2 := scanLastNL_le hs
    have hget := scanLastNL_get hs
    by_cases hlt : j < w.length
    · have hb : coordinatorBytes w = j := by
        rw [coordinatorBytes_spec, hs]
        simp [hlt]
      rw [hb]
      have htl : (w.take j).length = j := by simp [List.length_take]; omega
      have hlast : (w.take j).getLast? = some NL := by
        rw [List.getLast?_eq_getElem?, htl, List.getElem?_take,
          if_pos (by omega : j - 1 < j)]
        exact hget
      rw [workerUsable_spec, scanLastNL_getLast hlast, htl]
    · have hj : j = w.length := by omega
      have hb : coordinatorBytes w = w.length := by
        rw [coordinatorBytes_spec, hs]
        simp [hlt]
      rw [hb, List.take_length, workerUsable_spec, hs, hj]

/-! ### Structure of the assigned chunk ranges -/

theorem window_length (file : List Nat) (off : Nat) :
    ((file.drop off).take BUFFER_SIZE).length = min BUFFER_SIZE (file.length - off) := by
  simp [List.length_take, List.length_drop]

theorem chunks_pos (file : List Nat) : ∀ (n : Nat) (off : Nat), file.length - off = n →
    ∀ ob ∈ chunksFrom file off, 1 ≤ ob.2 := by
  intro n
  induction n using Nat.strong_induction_on with
  | _ n ih =>
    intro off hn ob hob
    rw [chunksFrom_eq] at hob
    split at hob
    · simp at hob
    · rename_i hw
      have hoff : off < file.length := by
        rw [window_length] at hw
        simp [BUFFER_SIZE] at hw
        omega
      have hb : 1 ≤ coordinatorBytes ((file.drop off).take BUFFER_SIZE) := by
        apply coordinatorBytes_pos
        intro hnil
        exact hw (by rw [hnil]; rfl)
      rcases List.mem_cons.mp hob with h | h
      · subst h; exact hb
      · exact ih _ (by omega) _ rfl ob h

theorem chunks_cover (file : List Nat) : ∀ (n : Nat) (off : Nat), file.length - off = n →
    off + (((chunksFrom file off)).map Prod.snd).sum = max off file.length := by
  intro n
  induction n using Nat.strong_induction_on with
  | _ n ih =>
    intro off hn
    rw [chunksFrom_eq]
    split
    · rename_i hw
      rw [window_length] at hw
      simp [BUFFER_SIZE] at hw
      simp
      omega
    · rename_i hw
      have hoff : off < file.length := by
        rw [window_length] at hw
        simp [BUFFER_SIZE] at hw
        omega
      have hb : 1 ≤ coordinatorBytes ((file.drop off).take BUFFER_SIZE) := by
        apply coordinatorBytes_pos
        intro hnil
        exact hw (by rw [hnil]; rfl)
      have hble : coordinatorBytes ((file.drop off).take BUFFER_SIZE) ≤ file.length - off := by
        have := coordinatorBytes_le ((file.drop off).take BUFFER_SIZE)
        rw [window_length] at this
        omega
      have hrec := ih _ (by omega) (off + coordinatorBytes ((file.drop off).take BUFFER_SIZE)) rfl
      simp only [List.map_cons, List.sum_cons]
      omega

theorem offEnd_zero (file : List Nat) : offEnd file 0 = 0 := rfl

theorem offEnd_succ {file : List Nat} {m : Nat} {ob : Nat × Nat}
    (h : (chunksFrom file 0)[m]? = some ob) :
    offEnd file (m + 1) = offEnd file m + ob.2 := by
  unfold offEnd
  rw [List.take_succ, h]
  simp

theorem offAt_general (file : List Nat) : ∀ (i off : Nat) (ob : Nat × Nat),
    (chunksFrom file off)[i]? = some ob →
    ob.1 = off + (((chunksFrom file off).take i).map Prod.snd).sum := by
  intro i
  induction i with
  | zero =>
    intro off ob h
    rw [chunksFrom_eq] at h
    split at h
    · simp at h
    · simp at h
      subst h
      simp
  | succ i ih =>
    intro off ob h
    rw [chunksFrom_eq] at h
    split at h
    · simp at h
    · rename_i hw
      simp only [List.getElem?_cons_succ] at h
      have hrec := ih _ _ h
      have hsg : chunksFrom file off =
          (off, coordinatorBytes ((file.drop off).take BUFFER_SIZE)) ::
            chunksFrom file (off + coordinatorBytes ((file.drop off).take BUFFER_SIZE)) := by
        rw [chunksFrom_eq, if_neg hw]
      rw [hsg]
      simp only [List.take_succ_cons, List.map_cons, List.sum_cons]
      omega

theorem offAt {file : List Nat} {i : Nat} {ob : Nat × Nat}
    (h : (chunksFrom file 0)[i]? = some ob) : ob.1 = offEnd file i := by
  have := offAt_general file i 0 ob h
  simpa [offEnd] using this

theorem offEnd_le_succ {file : List Nat} (m : Nat) :
    offEnd file m ≤ offEnd file (m + 1) := by
  unfold offEnd
  cases h : (chunksFrom file 0)[m]? with
  | none =>
    rw [List.take_succ, h]
    simp
  | some ob =>
    rw [List.take_succ, h]
    simp

theorem offEnd_mono {file : List Nat} {i j : Nat} (h : i ≤ j) :
    offEnd file i ≤ offEnd file j := by
  induction j with
  | zero => simp_all
  | succ j ih =>
    rcases Nat.lt_or_ge i (j + 1) with hlt | hge
    · exact Nat.le_trans (ih (by omega)) (offEnd_le_succ j)
    · have : i = j + 1 := by omega
      subst this
      exact Nat.le_refl _

theorem offEnd_strict {file : List Nat} {i : Nat}
    (h : i < (chunksFrom file 0).length) : offEnd file i < offEnd file (i + 1) := by
  obtain ⟨ob, hob⟩ : ∃ ob, (chunksFrom file 0)[i]? = some ob :=
    ⟨(chunksFrom file 0)[i], List.getElem?_eq_getElem h⟩
  have hb : 1 ≤ ob.2 := chunks_pos file _ 0 rfl ob (List.getElem?_mem hob)
  rw [offEnd_succ hob]
  omega

theorem offEnd_lt {file : List Nat} {i j : Nat} (hij : i < j)
    (hj : j ≤ (chunksFrom file 0).length) : offEnd file i < offEnd file j := by
  have h1 : offEnd file i < offEnd file (i + 1) := offEnd_strict (by omega)
  have h2 : offEnd file (i + 1) ≤ offEnd file j := offEnd_mono (by omega)
  omega

theorem offEnd_total (file : List Nat) :
    offEnd file (chunksFrom file 0).length = file.length := by
  have h := chunks_cover file (file.length - 0) 0 rfl
  unfold offEnd
  rw [List.take_length]
  simp at h
  exact h

theorem offEnd_le_len (file : List Nat) (m : Nat) (hm : m ≤ (chunksFrom file 0).length) :
    offEnd file m ≤ file.length := by
  have hmono : offEnd file m ≤ offEnd file (chunksFrom file 0).length := offEnd_mono hm
  rw [offEnd_total] at hmono
  exact hmono

theorem chunksFrom_drop (file : List Nat) : ∀ (n : Nat),
    n ≤ (chunksFrom file 0).length →
    chunksFrom file (offEnd file n) = (chunksFrom file 0).drop n := by
  intro n
  induction n with
  | zero => simp [offEnd_zero]
  | succ n ih =>
    intro h
    have hn : n < (chunksFrom file 0).length := by omega
    have hrec := ih (by omega)
    obtain ⟨ob, hob⟩ : ∃ ob, (chunksFrom file 0)[n]? = some ob :=
      ⟨(chunksFrom file 0)[n], List.getElem?_eq_getElem hn⟩
    have hdropn : (chunksFrom file 0).drop n = ob :: (chunksFrom file 0).drop (n + 1) := by
      rw [List.drop_eq_getElem_cons hn]
      congr 1
      have := List.getElem?_eq_getElem hn
      rw [this] at hob
      exact Option.some_inj.mp hob
    rw [hdropn] at hrec
    rw [chunksFrom_eq] at hrec
    split at hrec
    · simp at hrec
    · simp only [List.cons.injEq] at hrec
      obtain ⟨hhead, htail⟩ := hrec
      have hob2 : ob.2 = coordinatorBytes ((file.drop (offEnd file n)).take BUFFER_SIZE) := by
        rw [← hhead]
      rw [offEnd_succ hob, hob2]
      exact htail

theorem AC_get {file : List Nat} {n : Nat} (h : n < (chunksFrom file 0).length) :
    (chunksFrom file 0)[n]? =
      some (offEnd file n,
        coordinatorBytes ((file.drop (offEnd file n)).take BUFFER_SIZE)) := by
  have hdrop := chunksFrom_drop file n (by omega)
  have hne : (chunksFrom file 0).drop n ≠ [] := by
    intro hc
    have := List.length_drop n (chunksFrom file 0)
    rw [hc] at this
    simp at this
    omega
  rw [← hdrop] at hne
  rw [chunksFrom_eq] at hdrop
  split at hdrop
  · rw [chunksFrom_eq] at hne
    split at hne
    · exact absurd rfl hne
    · rename_i hw1 hw2
      exact absurd hw1 hw2
  · have hget : (chunksFrom file 0)[n]? = ((chunksFrom file 0).drop n).head? := by
      rw [List.head?_drop]
    rw [hget, ← hdrop]
    rfl

theorem window_empty_iff {file : List Nat} {n : Nat}
    (hn : n ≤ (chunksFrom file 0).length) :
    (((file.drop (offEnd file n)).take BUFFER_SIZE).length = 0 ↔
      n = (chunksFrom file 0).length) := by
  constructor
  · intro h
    rw [window_length] at h
    have hle := offEnd_le_len file n hn
    have hoe : offEnd file n = file.length := by
      simp [BUFFER_SIZE] at h
      omega
    by_contra hne
    have hlt : n < (chunksFrom file 0).length := by omega
    have := offEnd_lt hlt (Nat.le_refl _)
    rw [offEnd_total] at this
    omega
  · intro h
    subst h
    rw [window_length, offEnd_total]
    simp

/-! ### Worker reports for assigned ranges -/

theorem worker_chunk_spec {file : List Nat} {n : Nat} {ob : Nat × Nat}
    (hn : n < (chunksFrom file 0).length)
    (hob : (chunksFrom file 0)[n]? = some ob) (pid el : Nat) :
    (worker_result file pid ob.1 ob.2 el).bytes_read = ob.2 ∧
    (worker_result file pid ob.1 ob.2 el).text = (file.drop ob.1).take ob.2 := by
  have hac := AC_get hn
  rw [hob] at hac
  have hob' := Option.some_inj.mp hac
  subst hob'
  have hWne : (file.drop (offEnd file n)).take BUFFER_SIZE ≠ [] := by
    intro hc
    have h0 : ((file.drop (offEnd file n)).take BUFFER_SIZE).length = 0 := by rw [hc]; rfl
    have hwe : ((file.drop (offEnd file n)).take BUFFER_SIZE).length = 0 ↔
        n = (chunksFrom file 0).length := window_empty_iff (by omega)
    have := hwe.mp h0
    omega
  have hble := coordinatorBytes_le ((file.drop (offEnd file n)).take BUFFER_SIZE)
  have hwl := window_length file (offEnd file n)
  have hmin : min (coordinatorBytes ((file.drop (offEnd file n)).take BUFFER_SIZE)) BUFFER_SIZE
      = coordinatorBytes ((file.drop (offEnd file n)).take BUFFER_SIZE) := by omega
  have hbuf : worker_read file (offEnd file n)
        (coordinatorBytes ((file.drop (offEnd file n)).take BUFFER_SIZE)) =
      ((file.drop (offEnd file n)).take BUFFER_SIZE).take
        (coordinatorBytes ((file.drop (offEnd file n)).take BUFFER_SIZE)) := by
    rw [worker_read, List.take_take, hmin]
  have husable : workerUsable (worker_read file (offEnd file n)
        (coordinatorBytes ((file.drop (offEnd file n)).take BUFFER_SIZE))) =
      coordinatorBytes ((file.drop (offEnd file n)).take BUFFER_SIZE) := by
    rw [hbuf]
    exact workerUsable_take_coordinatorBytes hWne
  constructor
  · exact husable
  · show (worker_read file (offEnd file n)
        (coordinatorBytes ((file.drop (offEnd file n)).take BUFFER_SIZE))).take
        (workerUsable (worker_read file (offEnd file n)
          (coordinatorBytes ((file.drop (offEnd file n)).take BUFFER_SIZE)))) =
      (file.drop (offEnd file n)).take
        (coordinatorBytes ((file.drop (offEnd file n)).take BUFFER_SIZE))
    rw [husable, worker_read, List.take_take, min_self]

theorem isW_intro {file : List Nat} {n : Nat} {ob : Nat × Nat}
    (hob : (chunksFrom file 0)[n]? = some ob) (pid el : Nat) :
    isW file n (worker_result file pid ob.1 ob.2 el) :=
  ⟨ob, hob, rfl⟩

theorem isW_lt_len {file : List Nat} {i : Nat} {c : Chunk} (h : isW file i c) :
    i < (chunksFrom file 0).length := by
  obtain ⟨ob, hob, _⟩ := h
  by_contra hge
  rw [List.getElem?_eq_none (by omega)] at hob
  exact Option.noConfusion hob

theorem isW_elim {file : List Nat} {i : Nat} {c : Chunk} (h : isW file i c) :
    i < (chunksFrom file 0).length ∧
    c.file_offset = offEnd file i ∧
    1 ≤ c.bytes_read ∧
    c.file_offset + c.bytes_read = offEnd file (i + 1) ∧
    c.text = (file.drop (offEnd file i)).take c.bytes_read := by
  have hlt := isW_lt_len h
  obtain ⟨ob, hob, hc⟩ := h
  have hoff : ob.1 = offEnd file i := offAt hob
  obtain ⟨hbytes, htext⟩ := worker_chunk_spec hlt hob c.process_id c.elapsed_time
  have hpos : 1 ≤ ob.2 := chunks_pos file _ 0 rfl ob (List.getElem?_mem hob)
  have hcoff : c.file_offset = ob.1 := by rw [hc]; rfl
  have hcbytes : c.bytes_read = ob.2 := by rw [hc]; exact hbytes
  have hctext : c.text = (file.drop ob.1).take ob.2 := by rw [hc]; exact htext
  refine ⟨hlt, by rw [hcoff, hoff], by omega, ?_, ?_⟩
  · rw [hcoff, hoff, hcbytes, offEnd_succ hob]
  · rw [hctext, hoff, hcbytes]

theorem offEnd_lt_iff {file : List Nat} {i j : Nat}
    (hi : i ≤ (chunksFrom file 0).length) (hj : j ≤ (chunksFrom file 0).length) :
    offEnd file i < offEnd file j ↔ i < j := by
  constructor
  · intro h
    by_contra hc
    have : offEnd file j ≤ offEnd file i := offEnd_mono (by omega)
    omega
  · intro h
    exact offEnd_lt h hj

theorem isW_offset_lt {file : List Nat} {i j : Nat} {c d : Chunk}
    (hc : isW file i c) (hd : isW file j d) :
    c.file_offset < d.file_offset ↔ i < j := by
  obtain ⟨hci, hcoff, -, -, -⟩ := isW_elim hc
  obtain ⟨hdi, hdoff, -, -, -⟩ := isW_elim hd
  rw [hcoff, hdoff]
  exact offEnd_lt_iff (by omega) (by omega)

/-! ### List helpers for the reorder argument -/

theorem perm_cons_eraseIdx {α : Type _} :
    ∀ (l : List α) (k : Nat) (a : α), l[k]? = some a → l.Perm (a :: l.eraseIdx k) := by
  intro l
  induction l with
  | nil => intro k a h; simp at h
  | cons c rest ih =>
    intro k a h
    cases k with
    | zero =>
      simp at h
      subst h
      simp [List.eraseIdx]
    | succ k =>
      simp only [List.getElem?_cons_succ] at h
      have hrec := ih k a h
      have h1 : (c :: rest).Perm (c :: a :: rest.eraseIdx k) := hrec.cons c
      have h2 : (c :: a :: rest.eraseIdx k).Perm (a :: c :: rest.eraseIdx k) :=
        List.Perm.swap a c _
      have h3 : (c :: rest).eraseIdx (k + 1) = c :: rest.eraseIdx k := rfl
      rw [h3]
      exact h1.trans h2

theorem forall2_getElem? {α β : Type _} {R : α → β → Prop} :
    ∀ {I : List α} {l : List β}, List.Forall₂ R I l →
    ∀ (k : Nat) (b : β), l[k]? = some b → ∃ a, I[k]? = some a ∧ R a b := by
  intro I l h
  induction h with
  | nil => intro k b hb; simp at hb
  | cons hr hrest ih =>
    intro k b hb
    cases k with
    | zero =>
      simp only [List.getElem?_cons_zero, Option.some.injEq] at hb
      subst hb
      exact ⟨_, List.getElem?_cons_zero, hr⟩
    | succ k =>
      simp only [List.getElem?_cons_succ] at hb ⊢
      exact ih k b hb

theorem forall2_cons_left {α β : Type _} {R : α → β → Prop} {a : α} {l₁ : List α}
    {l₂ : List β} (h : List.Forall₂ R (a :: l₁) l₂) :
    ∃ b t, l₂ = b :: t ∧ R a b ∧ List.Forall₂ R l₁ t := by
  cases h with
  | cons hr hrest => exact ⟨_, _, rfl, hr, hrest⟩

theorem forall2_nil_left {α β : Type _} {R : α → β → Prop} {l₂ : List β}
    (h : List.Forall₂ R [] l₂) : l₂ = [] := by
  cases h
  rfl

theorem forall2_eraseIdx {α β : Type _} {R : α → β → Prop} :
    ∀ {I : List α} {l : List β}, List.Forall₂ R I l →
    ∀ (k : Nat), List.Forall₂ R (I.eraseIdx k) (l.eraseIdx k) := by
  intro I l h
  induction h with
  | nil => intro k; simp [List.eraseIdx]
  | cons hr hrest ih =>
    intro k
    cases k with
    | zero => simpa [List.eraseIdx] using hrest
    | succ k =>
      simp only [List.eraseIdx]
      exact List.Forall₂.cons hr (ih k)

/-! ### Sorted insertion preserves the pending-list correspondence -/

theorem insert_rest_sorted {file : List Nat} {i0 : Nat} {c : Chunk} (hc : isW file i0 c) :
    ∀ {I : List Nat} {pending : List Chunk}, List.Forall₂ (isW file) I pending →
    I.Pairwise (· < ·) → (∀ i ∈ I, i ≠ i0) →
    ∃ I₁, List.Forall₂ (isW file) I₁ (insert_rest c pending) ∧
      I₁.Perm (i0 :: I) ∧ I₁.Pairwise (· < ·) := by
  intro I pending hfa
  induction hfa with
  | nil =>
    intro _ _
    exact ⟨[i0], List.Forall₂.cons hc List.Forall₂.nil, List.Perm.refl _, by simp⟩
  | @cons i₁ c₁ I' rest hr hrest ih =>
    intro hpw hne
    have hne1 : i₁ ≠ i0 := hne i₁ (by simp)
    by_cases hlt : c₁.file_offset < c.file_offset
    · have hi1 : i₁ < i0 := (isW_offset_lt hr hc).mp hlt
      obtain ⟨I₂, hfa₂, hperm₂, hpw₂⟩ := ih (List.Pairwise.sublist (by simp) hpw)
        (fun i hi => hne i (by simp [hi]))
      refine ⟨i₁ :: I₂, ?_, ?_, ?_⟩
      · show List.Forall₂ (isW file) (i₁ :: I₂) (insert_rest c (c₁ :: rest))
        rw [insert_rest, if_pos hlt]
        exact List.Forall₂.cons hr hfa₂
      · have h1 : (i₁ :: I₂).Perm (i₁ :: i0 :: I') := hperm₂.cons i₁
        have h2 : (i₁ :: i0 :: I').Perm (i0 :: i₁ :: I') := List.Perm.swap i0 i₁ I'
        exact h1.trans h2
      · refine List.Pairwise.cons ?_ hpw₂
        intro j hj
        have hj' : j ∈ i0 :: I' := hperm₂.mem_iff.mp hj
        rcases List.mem_cons.mp hj' with h | h
        · omega
        · exact List.rel_of_pairwise_cons hpw h
    · have hof : c.file_offset ≠ c₁.file_offset := by
        intro hq
        have h1 : ¬(c.file_offset < c₁.file_offset) := by omega
        have h2 : ¬(i0 < i₁) := fun hk => h1 ((isW_offset_lt hc hr).mpr hk)
        have h3 : ¬(i₁ < i0) := fun hk => hlt ((isW_offset_lt hr hc).mpr hk)
        omega
      have hlt2 : c.file_offset < c₁.file_offset := by omega
      have hi1 : i0 < i₁ := (isW_offset_lt hc hr).mp hlt2
      refine ⟨i0 :: i₁ :: I', ?_, List.Perm.refl _, ?_⟩
      · show List.Forall₂ (isW file) (i0 :: i₁ :: I') (insert_rest c (c₁ :: rest))
        rw [insert_rest, if_neg hlt]
        exact List.Forall₂.cons hc (List.Forall₂.cons hr hrest)
      · refine List.Pairwise.cons ?_ hpw
        intro j hj
        rcases List.mem_cons.mp hj with h | h
        · omega
        · have := List.rel_of_pairwise_cons hpw h
          omega

theorem insert_chunk_sorted_spec {file : List Nat} {i0 : Nat} {c : Chunk}
    (hc : isW file i0 c) :
    ∀ {I : List Nat} {pending : List Chunk}, List.Forall₂ (isW file) I pending →
    I.Pairwise (· < ·) → (∀ i ∈ I, i ≠ i0) →
    ∃ I₁, List.Forall₂ (isW file) I₁ (insert_chunk_sorted c pending) ∧
      I₁.Perm (i0 :: I) ∧ I₁.Pairwise (· < ·) := by
  intro I pending hfa hpw hne
  cases hfa with
  | nil =>
    exact ⟨[i0], List.Forall₂.cons hc List.Forall₂.nil, List.Perm.refl _, by simp⟩
  | @cons i₁ c₁ I' rest hr hrest =>
    have hne1 : i₁ ≠ i0 := hne i₁ (by simp)
    by_cases hlt : c.file_offset < c₁.file_offset
    · have hi1 : i0 < i₁ := (isW_offset_lt hc hr).mp hlt
      refine ⟨i0 :: i₁ :: I', ?_, List.Perm.refl _, ?_⟩
      · show List.Forall₂ (isW file) (i0 :: i₁ :: I') (insert_chunk_sorted c (c₁ :: rest))
        rw [insert_chunk_sorted, if_pos hlt]
        exact List.Forall₂.cons hc (List.Forall₂.cons hr hrest)
      · refine List.Pairwise.cons ?_ hpw
        intro j hj
        rcases List.mem_cons.mp hj with h | h
        · omega
        · have := List.rel_of_pairwise_cons hpw h
          omega
    · have hof : c₁.file_offset ≠ c.file_offset := by
        intro hq
        have h2 : ¬(i0 < i₁) := fun hk => hlt ((isW_offset_lt hc hr).mpr hk)
        have h3 : ¬(i₁ < i0) := fun hk => (by omega : ¬(c₁.file_offset < c.file_offset))
          ((isW_offset_lt hr hc).mpr hk)
        omega
      have hlt2 : c₁.file_offset < c.file_offset := by omega
      have hi1 : i₁ < i0 := (isW_offset_lt hr hc).mp hlt2
      obtain ⟨I₂, hfa₂, hperm₂, hpw₂⟩ := insert_rest_sorted hc hrest
        (List.Pairwise.sublist (by simp) hpw) (fun i hi => hne i (by simp [hi]))
      refine ⟨i₁ :: I₂, ?_, ?_, ?_⟩
      · show List.Forall₂ (isW file) (i₁ :: I₂) (insert_chunk_sorted c (c₁ :: rest))
        rw [insert_chunk_sorted, if_neg hlt]
        exact List.Forall₂.cons hr hfa₂
      · have h1 : (i₁ :: I₂).Perm (i₁ :: i0 :: I') := hperm₂.cons i₁
        have h2 : (i₁ :: i0 :: I').Perm (i0 :: i₁ :: I') := List.Perm.swap i0 i₁ I'
        exact h1.trans h2
      · refine List.Pairwise.cons ?_ hpw₂
        intro j hj
        have hj' : j ∈ i0 :: I' := hperm₂.mem_iff.mp hj
        rcases List.mem_cons.mp hj' with h | h
        · omega
        · exact List.rel_of_pairwise_cons hpw h

/-! ### The reference sequential run -/

theorem coord_step_ready (matcher : List Nat → Bool) {s : CoordState} {c : Chunk}
    (hp : s.pending = []) (hoff : c.file_offset = s.next_offset_to_process) :
    coord_step matcher s c = drain_body matcher { s with pending := [c] } c [] := by
  unfold coord_step
  rw [hp]
  have hins : insert_chunk_sorted c ([] : List Chunk) = [c] := rfl
  rw [hins]
  rw [drain_eq]
  have hpop : pop_expected_chunk ({ s with pending := [c]} : CoordState).pending
      ({ s with pending := [c]} : CoordState).next_offset_to_process = some (c, []) := by
    simp [pop_expected_chunk, hoff]
  rw [hpop]
  show drain matcher (drain_body matcher { s with pending := [c] } c []) =
    drain_body matcher { s with pending := [c] } c []
  rfl

theorem drain_body_fields (matcher : List Nat → Bool) (s : CoordState) (c : Chunk)
    (rest : List Chunk) :
    (drain_body matcher s c rest).pending = rest ∧
    (drain_body matcher s c rest).next_offset_to_process = c.file_offset + c.bytes_read ∧
    (drain_body matcher s c rest).carry =
      (process_paragraphs matcher (s.carry ++ c.text)).carry ∧
    (drain_body matcher s c rest).log = s.log ++
      [⟨c.process_id, c.file_offset, c.bytes_read, c.elapsed_time,
        (process_paragraphs matcher (s.carry ++ c.text)).found⟩] ∧
    (drain_body matcher s c rest).out = s.out ++
      (process_paragraphs matcher (s.carry ++ c.text)).printed ∧
    (drain_body matcher s c rest).records = s.records ++
      (process_paragraphs matcher (s.carry ++ c.text)).records :=
  ⟨rfl, rfl, rfl, rfl, rfl, rfl⟩

theorem projEq_drain_body (matcher : List Nat → Bool) {s t : CoordState} {c d : Chunk}
    (hst : projEq s t) (hoff : c.file_offset = d.file_offset)
    (hbytes : c.bytes_read = d.bytes_read) (htext : c.text = d.text)
    (rest₁ rest₂ : List Chunk) :
    projEq (drain_body matcher s c rest₁) (drain_body matcher t d rest₂) := by
  obtain ⟨hcarry, hout, hrecords, hlog, hnext⟩ := hst
  have hpp : process_paragraphs matcher (s.carry ++ c.text) =
      process_paragraphs matcher (t.carry ++ d.text) := by rw [hcarry, htext]
  refine ⟨?_, ?_, ?_, ?_, ?_⟩
  · show (process_paragraphs matcher (s.carry ++ c.text)).carry =
      (process_paragraphs matcher (t.carry ++ d.text)).carry
    rw [hpp]
  · show s.out ++ (process_paragraphs matcher (s.carry ++ c.text)).printed =
      t.out ++ (process_paragraphs matcher (t.carry ++ d.text)).printed
    rw [hout, hpp]
  · show s.records ++ (process_paragraphs matcher (s.carry ++ c.text)).records =
      t.records ++ (process_paragraphs matcher (t.carry ++ d.text)).records
    rw [hrecords, hpp]
  · show (s.log ++ [LogEntry.mk c.process_id c.file_offset c.bytes_read c.elapsed_time
        (process_paragraphs matcher (s.carry ++ c.text)).found]).map proj3 =
      (t.log ++ [LogEntry.mk d.process_id d.file_offset d.bytes_read d.elapsed_time
        (process_paragraphs matcher (t.carry ++ d.text)).found]).map proj3
    rw [List.map_append, List.map_append, hlog, hpp]
    simp [proj3, hoff, hbytes]
  · show c.file_offset + c.bytes_read = d.file_offset + d.bytes_read
    rw [hoff, hbytes]

theorem seq_zero (matcher : List Nat → Bool) (file : List Nat) :
    seq_state matcher file 0 = init_coord := rfl

theorem seq_succ_eq (matcher : List Nat → Bool) (file : List Nat) {m : Nat}
    {ob : Nat × Nat} (hob : (chunksFrom file 0)[m]? = some ob) :
    seq_state matcher file (m + 1) =
      coord_step matcher (seq_state matcher file m) (worker_result file 0 ob.1 ob.2 0) := by
  unfold seq_state
  rw [List.take_succ, hob]
  simp [List.foldl_append, seq_acc_step]

theorem seq_stable (matcher : List Nat → Bool) (file : List Nat) {m : Nat}
    (hm : (chunksFrom file 0).length ≤ m) :
    seq_state matcher file m = seq_state matcher file (chunksFrom file 0).length := by
  unfold seq_state
  rw [List.take_of_length_le hm, List.take_length]

theorem seq_pending_nextProc (matcher : List Nat → Bool) (file : List Nat) :
    ∀ (m : Nat), (seq_state matcher file m).pending = [] ∧
      (seq_state matcher file m).next_offset_to_process = offEnd file m := by
  intro m
  induction m with
  | zero => exact ⟨rfl, rfl⟩
  | succ m ih =>
    obtain ⟨hp, hn⟩ := ih
    by_cases hm : m < (chunksFrom file 0).length
    · obtain ⟨ob, hob⟩ : ∃ ob, (chunksFrom file 0)[m]? = some ob :=
        ⟨(chunksFrom file 0)[m], List.getElem?_eq_getElem hm⟩
      have hw := isW_intro hob 0 0
      obtain ⟨-, hoff, -, hend, -⟩ := isW_elim hw
      rw [seq_succ_eq matcher file hob,
        coord_step_ready matcher hp (by rw [hoff, hn])]
      refine ⟨rfl, ?_⟩
      show (worker_result file 0 ob.1 ob.2 0).file_offset +
        (worker_result file 0 ob.1 ob.2 0).bytes_read = offEnd file (m + 1)
      exact hend
    · have h1 : (chunksFrom file 0).length ≤ m := by omega
      rw [seq_stable matcher file h1, seq_stable matcher file (by omega)] at *
      refine ⟨hp, ?_⟩
      rw [hn]
      unfold offEnd
      rw [List.take_of_length_le (by omega), List.take_of_length_le (by omega)]

/-- Draining after an insertion consumes exactly the contiguous run of indices
available at the front of the pending list, and keeps the processing state in
lockstep with the reference sequential run. -/
theorem drain_spec (matcher : List Nat → Bool) (file : List Nat) :
    ∀ (I : List Nat) (m : Nat) (s : CoordState),
    List.Forall₂ (isW file) I s.pending → I.Pairwise (· < ·) →
    (∀ i ∈ I, m ≤ i) → m ≤ (chunksFrom file 0).length →
    projEq s (seq_state matcher file m) →
    ∃ m' I', m ≤ m' ∧ m' ≤ (chunksFrom file 0).length ∧
      I = List.range' m (m' - m) ++ I' ∧
      List.Forall₂ (isW file) I' (drain matcher s).pending ∧
      I'.Pairwise (· < ·) ∧ (∀ i ∈ I', m' < i) ∧
      projEq (drain matcher s) (seq_state matcher file m') := by
  intro I
  induction I with
  | nil =>
    intro m s hfa hpw hge hm hproj
    have hp : s.pending = [] := forall2_nil_left hfa
    have hdr : drain matcher s = s := by
      rw [drain_eq]
      have : pop_expected_chunk s.pending s.next_offset_to_process = none := by
        rw [hp]; rfl
      rw [this]
    refine ⟨m, [], Nat.le_refl _, hm, by simp, ?_, by simp, by simp, ?_⟩
    · rw [hdr, hp]; exact List.Forall₂.nil
    · rw [hdr]; exact hproj
  | cons i0 I₁ ih =>
    intro m s hfa hpw hge hm hproj
    obtain ⟨c, rest, hsp, hc, hrest⟩ := forall2_cons_left hfa
    obtain ⟨hi0N, hcoff, hcpos, hcend, hctext⟩ := isW_elim hc
    have hnext : s.next_offset_to_process = offEnd file m := by
      have hseq := (seq_pending_nextProc matcher file m).2
      obtain ⟨-, -, -, -, h5⟩ := hproj
      rw [h5, hseq]
    have hpwtail := (List.pairwise_cons.mp hpw).2
    have hpwhead := (List.pairwise_cons.mp hpw).1
    by_cases hi0 : i0 = m
    · subst hi0
      have hpop : pop_expected_chunk s.pending s.next_offset_to_process =
          some (c, rest) := by
        rw [hsp, hnext]
        simp [pop_expected_chunk, hcoff]
      have hdr : drain matcher s = drain matcher (drain_body matcher s c rest) := by
        rw [drain_eq, hpop]
      obtain ⟨ob, hob, hceq⟩ := hc
      have hwoff : (worker_result file 0 ob.1 ob.2 0).file_offset = offEnd file i0 := by
        show ob.1 = offEnd file i0
        exact offAt hob
      obtain ⟨-, -, -, hwend, hwtext⟩ := isW_elim (isW_intro hob 0 0)
      have hseqp := seq_pending_nextProc matcher file i0
      have hseq1 : seq_state matcher file (i0 + 1) =
          drain_body matcher
            { seq_state matcher file i0 with pending := [worker_result file 0 ob.1 ob.2 0] }
            (worker_result file 0 ob.1 ob.2 0) [] := by
        rw [seq_succ_eq matcher file hob]
        exact coord_step_ready matcher hseqp.1 (by rw [hwoff, hseqp.2])
      have hbytes : c.bytes_read = (worker_result file 0 ob.1 ob.2 0).bytes_read := by
        have h1 := hcend
        have h2 := hwend
        rw [hcoff] at h1
        rw [hwoff] at h2
        omega
      have htext : c.text = (worker_result file 0 ob.1 ob.2 0).text := by
        rw [hctext, hwtext, ← hbytes]
      have hproj2 : projEq (drain_body matcher s c rest)
          (seq_state matcher file (i0 + 1)) := by
        rw [hseq1]
        exact projEq_drain_body matcher hproj (by rw [hcoff, hwoff]) hbytes htext rest []
      have hfa2 : List.Forall₂ (isW file) I₁ (drain_body matcher s c rest).pending := hrest
      obtain ⟨m', I', hmm', hm'N, hI₁, hfa', hpw', hgt', hproj'⟩ :=
        ih (i0 + 1) (drain_body matcher s c rest) hfa2 hpwtail
          (fun i hi => by have := hpwhead i hi; omega) (by omega) hproj2
      refine ⟨m', I', by omega, hm'N, ?_, ?_, hpw', hgt', ?_⟩
      · have hsub : m' - i0 = (m' - (i0 + 1)) + 1 := by omega
        rw [hsub, List.range'_succ, hI₁]
        simp
      · rw [hdr]
        exact hfa'
      · rw [hdr]
        exact hproj'
    · have hmi0 : m < i0 := by
        have := hge i0 (by simp)
        omega
      have hlt : offEnd file m < offEnd file i0 := offEnd_lt hmi0 (by omega)
      have hne : c.file_offset ≠ offEnd file m := by rw [hcoff]; omega
      have hpop : pop_expected_chunk s.pending s.next_offset_to_process = none := by
        rw [hsp, hnext]
        simp [pop_expected_chunk, hne]
      have hdr : drain matcher s = s := by rw [drain_eq, hpop]
      refine ⟨m, i0 :: I₁, Nat.le_refl _, hm, by simp, ?_, hpw, ?_, ?_⟩
      · rw [hdr, hsp]
        exact List.Forall₂.cons hc hrest
      · intro i hi
        rcases List.mem_cons.mp hi with h | h
        · omega
        · have := hpwhead i h
          omega
      · rw [hdr]
        exact hproj

/-! ### The system invariant -/

theorem projEq_refl (s : CoordState) : projEq s s := ⟨rfl, rfl, rfl, rfl, rfl⟩

theorem forall2_append {α β : Type _} {R : α → β → Prop} :
    ∀ {a : List α} {b : List β} {c : List α} {d : List β}, List.Forall₂ R a b →
    List.Forall₂ R c d → List.Forall₂ R (a ++ c) (b ++ d) := by
  intro a b c d h1 h2
  induction h1 with
  | nil => exact h2
  | cons hr hrest ih => exact List.Forall₂.cons hr ih

theorem forall2_mem_left {α β : Type _} {R : α → β → Prop} :
    ∀ {I : List α} {l : List β}, List.Forall₂ R I l →
    ∀ {a : α}, a ∈ I → ∃ b, b ∈ l ∧ R a b := by
  intro I l h
  induction h with
  | nil => intro a ha; simp at ha
  | cons hr hrest ih =>
    intro a ha
    rcases List.mem_cons.mp ha with h | h
    · subst h
      exact ⟨_, by simp, hr⟩
    · obtain ⟨b, hb, hab⟩ := ih h
      exact ⟨b, by simp [hb], hab⟩

theorem sysInv_init (matcher : List Nat → Bool) (file : List Nat) :
    SysInv matcher file init_sys := by
  refine ⟨0, 0, [], [], by omega, by omega, rfl, ?_, List.Forall₂.nil, ?_, by simp⟩
  · intro h
    simp [init_sys] at h
  · exact ⟨List.Forall₂.nil, by simp, by simp, by omega, projEq_refl _⟩

theorem sysInv_step (matcher : List Nat → Bool) (file : List Nat) {s : SysState}
    (hinv : SysInv matcher file s) (e : Event) :
    SysInv matcher file (sys_step matcher file s e) := by
  obtain ⟨n, m, I, J, hnN, hmn, hassign, hfin, hJ, hCoord, hperm⟩ := hinv
  cases e with
  | request pid el =>
    by_cases hf : s.finished_assignments = true
    · have hstep : sys_step matcher file s (.request pid el) = s := by
        simp [sys_step, hf]
      rw [hstep]
      exact ⟨n, m, I, J, hnN, hmn, hassign, hfin, hJ, hCoord, hperm⟩
    · by_cases hw : ((file.drop s.next_offset_to_assign).take BUFFER_SIZE).length = 0
      · have hstep : sys_step matcher file s (.request pid el) =
            { s with finished_assignments := true } := by
          simp [sys_step, hf, hw]
        rw [hstep]
        have hnN' : n = (chunksFrom file 0).length := by
          rw [hassign] at hw
          exact (window_empty_iff hnN).mp hw
        exact ⟨n, m, I, J, hnN, hmn, hassign, fun _ => hnN', hJ, hCoord, hperm⟩
      · have hnlt : n < (chunksFrom file 0).length := by
          rcases Nat.lt_or_ge n (chunksFrom file 0).length with h | h
          · exact h
          · exfalso
            have hne : n = (chunksFrom file 0).length := by omega
            subst hne
            exact hw (by rw [hassign]; exact (window_empty_iff (Nat.le_refl _)).mpr rfl)
        have hstep : sys_step matcher file s (.request pid el) =
            { s with
              next_offset_to_assign := s.next_offset_to_assign +
                coordinatorBytes ((file.drop s.next_offset_to_assign).take BUFFER_SIZE),
              inflight := s.inflight ++
                [worker_result file pid s.next_offset_to_assign
                  (coordinatorBytes ((file.drop s.next_offset_to_assign).take BUFFER_SIZE))
                  el] } := by
          simp [sys_step, hf, hw]
          rw [window_length] at hw
          simp only [BUFFER_SIZE] at hw ⊢
          omega
        rw [hstep]
        have hget := AC_get hnlt
        have hw2 : isW file n (worker_result file pid s.next_offset_to_assign
            (coordinatorBytes ((file.drop s.next_offset_to_assign).take BUFFER_SIZE)) el) := by
          rw [hassign]
          exact isW_intro hget pid el
        have hassign' : s.next_offset_to_assign +
            coordinatorBytes ((file.drop s.next_offset_to_assign).take BUFFER_SIZE) =
            offEnd file (n + 1) := by
          rw [offEnd_succ hget, hassign]
        refine ⟨n + 1, m, I, J ++ [n], by omega, by omega, hassign', ?_, ?_, hCoord, ?_⟩
        · intro h
          exact absurd h hf
        · exact forall2_append hJ (List.Forall₂.cons hw2 List.Forall₂.nil)
        · have h1 : I ++ (J ++ [n]) = (I ++ J) ++ [n] := (List.append_assoc I J [n]).symm
          have h2 : ((I ++ J) ++ [n]).Perm (List.range' m (n - m) ++ [n]) :=
            hperm.append_right [n]
          have h3 : List.range' m (n - m) ++ [n] = List.range' m (n + 1 - m) := by
            have hc : List.range' m ((n - m) + 1) =
                List.range' m (n - m) ++ [m + 1 * (n - m)] :=
              List.range'_concat m (n - m)
            rw [show m + 1 * (n - m) = n by omega] at hc
            rw [show n + 1 - m = (n - m) + 1 by omega]
            exact hc.symm
          rw [h1, ← h3]
          exact h2
  | deliver k =>
    cases hk : s.inflight[k]? with
    | none =>
      have hstep : sys_step matcher file s (.deliver k) = s := by
        simp [sys_step, hk]
      rw [hstep]
      exact ⟨n, m, I, J, hnN, hmn, hassign, hfin, hJ, hCoord, hperm⟩
    | some c =>
      have hstep : sys_step matcher file s (.deliver k) =
          { s with inflight := s.inflight.eraseIdx k,
                   coord := coord_step matcher s.coord c } := by
        simp [sys_step, hk]
      rw [hstep]
      obtain ⟨i0, hJk, hc⟩ := forall2_getElem? hJ k c hk
      have hi0J : i0 ∈ J := List.getElem?_mem hJk
      have hi0mem : i0 ∈ List.range' m (n - m) :=
        hperm.mem_iff.mp (List.mem_append.mpr (Or.inr hi0J))
      have hi0range := List.mem_range'_1.mp hi0mem
      have hi0n : i0 < n := by omega
      have hi0m : m ≤ i0 := by omega
      have hnd : (I ++ J).Nodup := hperm.nodup_iff.mpr (List.nodup_range' m (n - m))
      have hdisj := (List.nodup_append.mp hnd).2.2
      have hi0I : i0 ∉ I := fun hmem => hdisj hmem hi0J
      obtain ⟨hfaI, hpwI, hboundsI, hmN, hprojI⟩ := hCoord
      obtain ⟨I₁, hfa₁, hperm₁, hpw₁⟩ := insert_chunk_sorted_spec hc hfaI hpwI
        (fun i hi he => hi0I (he ▸ hi))
      have hge₁ : ∀ i ∈ I₁, m ≤ i := by
        intro i hi
        have hi' : i ∈ i0 :: I := hperm₁.mem_iff.mp hi
        rcases List.mem_cons.mp hi' with h | h
        · omega
        · have := (hboundsI i h).1
          omega
      have hIn : ∀ i ∈ I, i < n := by
        intro i hi
        have : i ∈ List.range' m (n - m) :=
          hperm.mem_iff.mp (List.mem_append.mpr (Or.inl hi))
        have := List.mem_range'_1.mp this
        omega
      obtain ⟨m', I', hmm', hm'N, hI₁eq, hfa', hpw', hgt', hproj'⟩ :=
        drain_spec matcher file I₁ m
          ({ s.coord with pending := insert_chunk_sorted c s.coord.pending })
          hfa₁ hpw₁ hge₁ hmN hprojI
      have hm'n : m' ≤ n := by
        rcases Nat.lt_or_ge m m' with h | h
        · have hmem : m' - 1 ∈ List.range' m (m' - m) := by
            rw [List.mem_range'_1]
            omega
          have hmemI₁ : m' - 1 ∈ I₁ := by
            rw [hI₁eq]
            exact List.mem_append.mpr (Or.inl hmem)
          have hmemcons : m' - 1 ∈ i0 :: I := hperm₁.mem_iff.mp hmemI₁
          rcases List.mem_cons.mp hmemcons with hh | hh
          · omega
          · have := hIn _ hh
            omega
        · omega
      have hJperm : J.Perm (i0 :: J.eraseIdx k) := perm_cons_eraseIdx J k i0 hJk
      have hsplit : List.range' m (n - m) =
          List.range' m (m' - m) ++ List.range' m' (n - m') := by
        have hra := List.range'_append m (m' - m) (n - m') 1
        rw [show m + 1 * (m' - m) = m' by omega] at hra
        rw [show (n - m') + (m' - m) = n - m by omega] at hra
        exact hra.symm
      have hperm' : (I' ++ J.eraseIdx k).Perm (List.range' m' (n - m')) := by
        have step1 : (List.range' m (m' - m) ++ (I' ++ J.eraseIdx k)).Perm
            (I₁ ++ J.eraseIdx k) := by
          rw [hI₁eq, List.append_assoc]
        have step2 : (I₁ ++ J.eraseIdx k).Perm ((i0 :: I) ++ J.eraseIdx k) :=
          hperm₁.append_right _
        have step3 : ((i0 :: I) ++ J.eraseIdx k).Perm (I ++ (i0 :: J.eraseIdx k)) := by
          show (i0 :: (I ++ J.eraseIdx k)).Perm (I ++ i0 :: J.eraseIdx k)
          exact List.perm_middle.symm
        have step4 : (I ++ (i0 :: J.eraseIdx k)).Perm (I ++ J) :=
          List.Perm.append_left I hJperm.symm
        have step5 : (I ++ J).Perm (List.range' m (m' - m) ++ List.range' m' (n - m')) := by
          rw [← hsplit]
          exact hperm
        have hall := ((((step1.trans step2).trans step3).trans step4).trans step5)
        exact (List.perm_append_left_iff (List.range' m (m' - m))).mp hall
      have hcoord' : CoordInv matcher file m' I' (coord_step matcher s.coord c) := by
        refine ⟨hfa', hpw', ?_, hm'N, hproj'⟩
        intro i hi
        refine ⟨hgt' i hi, ?_⟩
        obtain ⟨b, hb, hib⟩ := forall2_mem_left hfa' hi
        exact isW_lt_len hib
      exact ⟨n, m', I', J.eraseIdx k, hnN, hm'n, hassign, hfin,
        forall2_eraseIdx hJ k, hcoord', hperm'⟩

theorem sysInv_run (matcher : List Nat → Bool) (file : List Nat) (trace : List Event) :
    SysInv matcher file (sys_run matcher file trace) := by
  have hgen : ∀ (tr : List Event) (s : SysState), SysInv matcher file s →
      SysInv matcher file (tr.foldl (sys_step matcher file) s) := by
    intro tr
    induction tr with
    | nil => intro s h; exact h
    | cons e rest ih =>
      intro s h
      exact ih _ (sysInv_step matcher file h e)
  exact hgen trace init_sys (sysInv_init matcher file)

/-! ### End-of-run corollaries -/

theorem drain_of_pop_none {matcher : List Nat → Bool} {s : CoordState}
    (h : pop_expected_chunk s.pending s.next_offset_to_process = none) :
    drain matcher s = s := by
  rw [drain_eq, h]

theorem coordInv_pop_none {matcher : List Nat → Bool} {file : List Nat} {m : Nat}
    {I : List Nat} {s : CoordState} (h : CoordInv matcher file m I s) :
    pop_expected_chunk s.pending s.next_offset_to_process = none := by
  obtain ⟨hfa, hpw, hbounds, hmN, hproj⟩ := h
  have hnext : s.next_offset_to_process = offEnd file m := by
    rw [hproj.2.2.2.2, (seq_pending_nextProc matcher file m).2]
  cases I with
  | nil =>
    rw [forall2_nil_left hfa]
    rfl
  | cons i0 I₁ =>
    obtain ⟨c, rest, hsp, hc, hrest⟩ := forall2_cons_left hfa
    obtain ⟨hi0N, hcoff, -, -, -⟩ := isW_elim hc
    have hmi : m < i0 := (hbounds i0 (by simp)).1
    have hlt : offEnd file m < offEnd file i0 := offEnd_lt hmi (by omega)
    have hne : c.file_offset ≠ offEnd file m := by rw [hcoff]; omega
    rw [hsp, hnext]
    simp [pop_expected_chunk, hne]

/-- After any event sequence whatsoever, the observable run outcome agrees,
up to worker ids and timings, with the reference sequential run of some prefix
of the assigned ranges. -/
theorem program_run_general (matcher : List Nat → Bool) (file : List Nat)
    (trace : List Event) :
    ∃ m, m ≤ (chunksFrom file 0).length ∧
      (program_run matcher file trace).log.map proj3 =
        (seq_state matcher file m).log.map proj3 ∧
      (program_run matcher file trace).out = (seq_state matcher file m).out ++
        (flush_remaining_paragraph matcher (seq_state matcher file m).carry).2 ∧
      (program_run matcher file trace).records = (seq_state matcher file m).records ++
        (if (seq_state matcher file m).carry.length = 0 then []
         else [(seq_state matcher file m).carry]) ∧
      (program_run matcher file trace).flushFound =
        (flush_remaining_paragraph matcher (seq_state matcher file m).carry).1 := by
  obtain ⟨n, m, I, J, hnN, hmn, hassign, hfin, hJ, hCoord, hperm⟩ :=
    sysInv_run matcher file trace
  have hpop := coordInv_pop_none hCoord
  obtain ⟨hfa, hpw, hbounds, hmN, hproj⟩ := hCoord
  obtain ⟨hcarry, hout, hrecords, hlog, hnext⟩ := hproj
  refine ⟨m, hmN, ?_, ?_, ?_, ?_⟩ <;>
    simp only [program_run, finalize, drain_of_pop_none hpop, hcarry, hout, hrecords, hlog]

/-- For a complete trace the consumed prefix is the whole file. -/
theorem complete_spec (matcher : List Nat → Bool) (file : List Nat) {trace : List Event}
    (h : Complete matcher file trace) :
    (sys_run matcher file trace).coord.pending = [] ∧
    projEq (sys_run matcher file trace).coord
      (seq_state matcher file (chunksFrom file 0).length) := by
  obtain ⟨hfinished, hinf⟩ := h
  obtain ⟨n, m, I, J, hnN, hmn, hassign, hfinimp, hJ, hCoord, hperm⟩ :=
    sysInv_run matcher file trace
  have hn : n = (chunksFrom file 0).length := hfinimp hfinished
  subst hn
  have hJnil : J = [] := by
    rw [hinf] at hJ
    cases hJ
    rfl
  subst hJnil
  obtain ⟨hfaI, hpwI, hboundsI, hmN, hprojI⟩ := hCoord
  have hpermI : I.Perm (List.range' m ((chunksFrom file 0).length - m)) := by
    simpa using hperm
  have hmeq : m = (chunksFrom file 0).length := by
    by_contra hne
    have hmlt : m < (chunksFrom file 0).length := by omega
    have hmem : m ∈ List.range' m ((chunksFrom file 0).length - m) :=
      List.mem_range'_1.mpr (by omega)
    have hmemI : m ∈ I := hpermI.mem_iff.mpr hmem
    have := (hboundsI m hmemI).1
    omega
  subst hmeq
  have hInil : I = [] := by
    have hpn : I.Perm [] := by simpa using hpermI
    exact hpn.eq_nil
  subst hInil
  exact ⟨forall2_nil_left hfaI, hprojI⟩

/-- For a complete trace the run outcome agrees, up to worker ids and timings,
with the reference sequential run of the whole file. -/
theorem program_run_complete (matcher : List Nat → Bool) (file : List Nat)
    {trace : List Event} (h : Complete matcher file trace) :
    (program_run matcher file trace).log.map proj3 =
      (seq_state matcher file (chunksFrom file 0).length).log.map proj3 ∧
    (program_run matcher file trace).out =
      (seq_state matcher file (chunksFrom file 0).length).out ++
        (flush_remaining_paragraph matcher
          (seq_state matcher file (chunksFrom file 0).length).carry).2 ∧
    (program_run matcher file trace).records =
      (seq_state matcher file (chunksFrom file 0).length).records ++
        (if (seq_state matcher file (chunksFrom file 0).length).carry.length = 0 then []
         else [(seq_state matcher file (chunksFrom file 0).length).carry]) ∧
    (program_run matcher file trace).flushFound =
      (flush_remaining_paragraph matcher
        (seq_state matcher file (chunksFrom file 0).length).carry).1 := by
  obtain ⟨hpend, hcarry, hout, hrecords, hlog, hnext⟩ := complete_spec matcher file h
  have hpop : pop_expected_chunk (sys_run matcher file trace).coord.pending
      (sys_run matcher file trace).coord.next_offset_to_process = none := by
    rw [hpend]
    rfl
  refine ⟨?_, ?_, ?_, ?_⟩ <;>
    simp only [program_run, finalize, drain_of_pop_none hpop, hcarry, hout, hrecords, hlog]

/-! ### Evaluation of the reference sequential run -/

/-- The sequential run is the extraction loop applied to the file prefix
covered by the consumed chunks; chunk boundaries are invisible. -/
theorem seq_pp (matcher : List Nat → Bool) (file : List Nat) :
    ∀ (m : Nat), m ≤ (chunksFrom file 0).length →
    (seq_state matcher file m).carry =
      (process_paragraphs matcher (file.take (offEnd file m))).carry ∧
    (seq_state matcher file m).records =
      (process_paragraphs matcher (file.take (offEnd file m))).records ∧
    (seq_state matcher file m).out =
      (process_paragraphs matcher (file.take (offEnd file m))).printed := by
  intro m
  induction m with
  | zero =>
    intro h
    have h0 : offEnd file 0 = 0 := rfl
    rw [h0]
    have hpp : process_paragraphs matcher ([] : List Nat) = ⟨false, [], [], []⟩ := by
      rw [pp_eq]
      rfl
    simp [seq_state, init_coord, hpp]
  | succ m ih =>
    intro h
    have hm : m < (chunksFrom file 0).length := by omega
    obtain ⟨hcarry, hrecords, hout⟩ := ih (by omega)
    obtain ⟨ob, hob⟩ : ∃ ob, (chunksFrom file 0)[m]? = some ob :=
      ⟨(chunksFrom file 0)[m], List.getElem?_eq_getElem hm⟩
    have hseqp := seq_pending_nextProc matcher file m
    obtain ⟨-, hwoff, -, hwend, hwtext⟩ := isW_elim (isW_intro hob 0 0)
    have hstep : seq_state matcher file (m + 1) =
        drain_body matcher
          { seq_state matcher file m with pending := [worker_result file 0 ob.1 ob.2 0] }
          (worker_result file 0 ob.1 ob.2 0) [] := by
      rw [seq_succ_eq matcher file hob]
      exact coord_step_ready matcher hseqp.1 (by rw [hwoff, hseqp.2])
    have hoffm : offEnd file (m + 1) = offEnd file m + ob.2 := offEnd_succ hob
    have hbytes : (worker_result file 0 ob.1 ob.2 0).bytes_read = ob.2 :=
      (worker_chunk_spec hm hob 0 0).1
    have htext : (worker_result file 0 ob.1 ob.2 0).text = (file.drop ob.1).take ob.2 :=
      (worker_chunk_spec hm hob 0 0).2
    have hob1 : ob.1 = offEnd file m := offAt hob
    have hprefix : file.take (offEnd file (m + 1)) =
        file.take (offEnd file m) ++ (file.drop (offEnd file m)).take ob.2 := by
      rw [hoffm, List.take_add]
    have happ := pp_append matcher (file.take (offEnd file m)).length
      (file.take (offEnd file m)) ((file.drop (offEnd file m)).take ob.2) rfl
    rw [hstep]
    refine ⟨?_, ?_, ?_⟩
    · show (process_paragraphs matcher ((seq_state matcher file m).carry ++
        (worker_result file 0 ob.1 ob.2 0).text)).carry = _
      rw [htext, hob1, hcarry, hprefix, happ]
    · show (seq_state matcher file m).records ++
        (process_paragraphs matcher ((seq_state matcher file m).carry ++
          (worker_result file 0 ob.1 ob.2 0).text)).records = _
      rw [htext, hob1, hrecords, hcarry, hprefix, happ]
    · show (seq_state matcher file m).out ++
        (process_paragraphs matcher ((seq_state matcher file m).carry ++
          (worker_result file 0 ob.1 ob.2 0).text)).printed = _
      rw [htext, hob1, hout, hcarry, hprefix, happ]

theorem seq_pp_total (matcher : List Nat → Bool) (file : List Nat) :
    (seq_state matcher file (chunksFrom file 0).length).carry =
      (process_paragraphs matcher file).carry ∧
    (seq_state matcher file (chunksFrom file 0).length).records =
      (process_paragraphs matcher file).records ∧
    (seq_state matcher file (chunksFrom file 0).length).out =
      (process_paragraphs matcher file).printed := by
  have h := seq_pp matcher file (chunksFrom file 0).length (Nat.le_refl _)
  rw [offEnd_total, List.take_length] at h
  exact h

theorem logChain_append {a : Nat} {l : List LogEntry} {b : Nat} (e : LogEntry)
    (h : logChain a l b = true) (hoff : e.file_offset = b) (hpos : 0 < e.bytes_read) :
    logChain a (l ++ [e]) (e.file_offset + e.bytes_read) = true := by
  induction l generalizing a with
  | nil =>
    simp [logChain] at h
    simp [logChain, h, hoff, hpos]
  | cons x rest ih =>
    simp only [logChain, Bool.and_eq_true, decide_eq_true_eq] at h
    obtain ⟨⟨h1, h2⟩, h3⟩ := h
    have := ih h3
    simp only [List.cons_append, logChain, Bool.and_eq_true, decide_eq_true_eq]
    exact ⟨⟨h1, h2⟩, this⟩

theorem seq_logChain (matcher : List Nat → Bool) (file : List Nat) :
    ∀ (m : Nat), m ≤ (chunksFrom file 0).length →
    logChain 0 (seq_state matcher file m).log (offEnd file m) = true := by
  intro m
  induction m with
  | zero =>
    intro h
    simp [seq_state, init_coord, logChain, offEnd_zero]
  | succ m ih =>
    intro h
    have hm : m < (chunksFrom file 0).length := by omega
    obtain ⟨ob, hob⟩ : ∃ ob, (chunksFrom file 0)[m]? = some ob :=
      ⟨(chunksFrom file 0)[m], List.getElem?_eq_getElem hm⟩
    have hseqp := seq_pending_nextProc matcher file m
    obtain ⟨-, hwoff, hwpos, hwend, -⟩ := isW_elim (isW_intro hob 0 0)
    have hstep : seq_state matcher file (m + 1) =
        drain_body matcher
          { seq_state matcher file m with pending := [worker_result file 0 ob.1 ob.2 0] }
          (worker_result file 0 ob.1 ob.2 0) [] := by
      rw [seq_succ_eq matcher file hob]
      exact coord_step_ready matcher hseqp.1 (by rw [hwoff, hseqp.2])
    rw [hstep]
    show logChain 0 ((seq_state matcher file m).log ++
      [⟨(worker_result file 0 ob.1 ob.2 0).process_id,
        (worker_result file 0 ob.1 ob.2 0).file_offset,
        (worker_result file 0 ob.1 ob.2 0).bytes_read,
        (worker_result file 0 ob.1 ob.2 0).elapsed_time, _⟩])
      (offEnd file (m + 1)) = true
    rw [← hwend]
    exact logChain_append _ (ih (by omega)) hwoff hwpos

theorem seq_log_length (matcher : List Nat → Bool) (file : List Nat) :
    ∀ (m : Nat), m ≤ (chunksFrom file 0).length →
    (seq_state matcher file m).log.length = m := by
  intro m
  induction m with
  | zero =>
    intro h
    rfl
  | succ m ih =>
    intro h
    have hm : m < (chunksFrom file 0).length := by omega
    obtain ⟨ob, hob⟩ : ∃ ob, (chunksFrom file 0)[m]? = some ob :=
      ⟨(chunksFrom file 0)[m], List.getElem?_eq_getElem hm⟩
    have hseqp := seq_pending_nextProc matcher file m
    obtain ⟨-, hwoff, -, -, -⟩ := isW_elim (isW_intro hob 0 0)
    have hstep : seq_state matcher file (m + 1) =
        drain_body matcher
          { seq_state matcher file m with pending := [worker_result file 0 ob.1 ob.2 0] }
          (worker_result file 0 ob.1 ob.2 0) [] := by
      rw [seq_succ_eq matcher file hob]
      exact coord_step_ready matcher hseqp.1 (by rw [hwoff, hseqp.2])
    rw [hstep]
    show ((seq_state matcher file m).log ++ [_]).length = m + 1
    rw [List.length_append, ih (by omega)]
    rfl

/-! ### Log-shape lemmas -/

theorem logChain_congr_proj : ∀ {l₁ l₂ : List LogEntry}, l₁.map proj3 = l₂.map proj3 →
    ∀ (a b : Nat), logChain a l₁ b = logChain a l₂ b := by
  intro l₁
  induction l₁ with
  | nil =>
    intro l₂ h a b
    cases l₂ with
    | nil => rfl
    | cons y ys => simp at h
  | cons x xs ih =>
    intro l₂ h a b
    cases l₂ with
    | nil => simp at h
    | cons y ys =>
      simp only [List.map_cons, List.cons.injEq] at h
      obtain ⟨hxy, hrest⟩ := h
      have h1 : x.file_offset = y.file_offset := by
        have := congrArg Prod.fst hxy
        simpa [proj3] using this
      have h2 : x.bytes_read = y.bytes_read := by
        have := congrArg (fun p => p.2.1) hxy
        simpa [proj3] using this
      simp only [logChain, h1, h2, ih hrest]

theorem logChain_ok : ∀ (l : List LogEntry) (a b : Nat), logChain a l b = true →
    logContiguous l = true ∧ logStrictIncr l = true := by
  intro l
  induction l with
  | nil => intro a b h; exact ⟨rfl, rfl⟩
  | cons x rest ih =>
    intro a b h
    simp only [logChain, Bool.and_eq_true, decide_eq_true_eq] at h
    obtain ⟨⟨h1, h2⟩, h3⟩ := h
    obtain ⟨hc, hs⟩ := ih _ _ h3
    cases rest with
    | nil => exact ⟨rfl, rfl⟩
    | cons y rest2 =>
      have hy : y.file_offset = x.file_offset + x.bytes_read := by
        simp only [logChain, Bool.and_eq_true, decide_eq_true_eq] at h3
        exact h3.1.1
      constructor
      · simp only [logContiguous, Bool.and_eq_true, decide_eq_true_eq]
        exact ⟨hy, hc⟩
      · simp only [logStrictIncr, Bool.and_eq_true, decide_eq_true_eq]
        exact ⟨by omega, hs⟩

/-! ### Shape of the flush output -/

theorem flush_shape (matcher : List Nat → Bool) {carry : List Nat}
    (hfdn : find_double_newline carry = none) :
    (flush_remaining_paragraph matcher carry).2 = [] ∨
    ∃ r, (flush_remaining_paragraph matcher carry).2 = r ++ [NL] ∧
      r.getLast? ≠ some NL := by
  by_cases hc : carry.length = 0
  · left
    simp [flush_remaining_paragraph, hc]
  · by_cases hm : matcher carry
    · by_cases hlast : carry.getLast? = some NL
      · right
        have hne : carry ≠ [] := by
          intro h
          rw [h] at hc
          exact hc rfl
        have hgl : carry.getLast hne = NL := by
          have hq := List.getLast?_eq_getLast carry hne
          rw [hq] at hlast
          exact Option.some_inj.mp hlast
        have hsplit : carry.dropLast ++ [NL] = carry := by
          rw [← hgl]
          exact List.dropLast_append_getLast hne
        refine ⟨carry.dropLast, ?_, ?_⟩
        · simp only [flush_remaining_paragraph, if_neg hc, hm, if_pos, hlast, if_true]
          simp [hsplit]
        · intro hdl
          have hlen2 : 2 ≤ carry.length := by
            rcases carry with - | ⟨a, rest⟩
            · exact absurd rfl hne
            · rcases rest with - | ⟨b, rest2⟩
              · simp at hdl
              · simp
          have hd1 : carry[carry.length - 2]? = some NL := by
            rw [List.dropLast_eq_take, List.getLast?_eq_getElem?, List.length_take] at hdl
            have hmin : min (carry.length - 1) carry.length = carry.length - 1 := by omega
            rw [hmin, List.getElem?_take] at hdl
            rw [if_pos (by omega : carry.length - 1 - 1 < carry.length - 1)] at hdl
            rw [show carry.length - 1 - 1 = carry.length - 2 by omega] at hdl
            exact hdl
          have hd2 : carry[carry.length - 1]? = some NL := by
            rw [List.getLast?_eq_getElem?] at hlast
            exact hlast
          apply fdn_none_no_pair hfdn (carry.length - 2)
          refine ⟨hd1, ?_⟩
          rw [show carry.length - 2 + 1 = carry.length - 1 by omega]
          exact hd2
      · right
        refine ⟨carry, ?_, hlast⟩
        simp [flush_remaining_paragraph, hc, hm, hlast]
    · left
      simp [flush_remaining_paragraph, hc, hm]

/-! ### The long-line input -/

theorem scanLastNL_replicate (k a : Nat) (h : a ≠ NL) :
    scanLastNL (List.replicate k a) = none := by
  induction k with
  | zero => rfl
  | succ k ih =>
    rw [List.replicate_succ]
    simp only [scanLastNL, ih, h]
    simp [h]

theorem longLineFile_length : longLineFile.length = 8194 := by
  rw [longLineFile, List.length_append, List.length_replicate]
  decide

theorem longLineFile_chunks : chunksFrom longLineFile 0 = [(0, 8192), (8192, 2)] := by
  have h1 : (longLineFile.drop 0).take BUFFER_SIZE = List.replicate 8192 97 := by
    rw [List.drop_zero, longLineFile, BUFFER_SIZE]
    rw [List.take_append_of_le_length (by rw [List.length_replicate]; decide)]
    rw [List.take_replicate]
    rw [show (8192 ⊓ 8193 : Nat) = 8192 from by omega]
  have hscan : scanLastNL (List.replicate 8192 97) = none :=
    scanLastNL_replicate _ _ (by decide)
  have hb1 : coordinatorBytes (List.replicate 8192 97) = 8192 := by
    rw [coordinatorBytes_spec, hscan]
    show (List.replicate 8192 (97 : Nat)).length = 8192
    rw [List.length_replicate]
  have h2 : (longLineFile.drop 8192).take BUFFER_SIZE = [97, NL] := by
    rw [longLineFile]
    rw [List.drop_append_of_le_length (by rw [List.length_replicate]; decide)]
    rw [List.drop_replicate]
    rw [show (8193 - 8192 : Nat) = 1 from by decide]
    rw [List.take_of_length_le (by decide)]
    rfl
  have hb2 : coordinatorBytes [97, NL] = 2 := by decide
  have h3 : ((longLineFile.drop 8194).take BUFFER_SIZE).length = 0 := by
    rw [List.drop_eq_nil_of_le (by rw [longLineFile_length])]
    rfl
  rw [chunksFrom_eq, h1]
  rw [if_neg (by rw [List.length_replicate]; decide)]
  rw [hb1]
  rw [chunksFrom_eq]
  rw [show (0 + 8192 : Nat) = 8192 from by decide]
  rw [h2]
  rw [if_neg (by decide)]
  rw [hb2]
  rw [chunksFrom_eq]
  rw [show (8192 + 2 : Nat) = 8194 from by decide]
  rw [if_pos h3]

theorem longLineFile_get : longLineFile[8191]? = some 97 := by
  rw [longLineFile, List.getElem?_append]
  rw [List.length_replicate]
  rw [if_pos (by decide)]
  rw [List.getElem?_replicate]
  rw [if_pos (by decide)]

/-! ### Claim theorems -/

/-- Claim C1: in every run, whatever the order of requests and completions,
the file_offset values of the log's data lines are strictly increasing and
contiguous: each next offset equals the previous offset plus the previous
byte count. -/
theorem C1_log_contiguous_strict (matcher : List Nat → Bool) (file : List Nat)
    (trace : List Event) :
    logContiguous (program_run matcher file trace).log = true ∧
    logStrictIncr (program_run matcher file trace).log = true := by
  obtain ⟨m, hm, hlog, -, -, -⟩ := program_run_general matcher file trace
  have hchain := seq_logChain matcher file m hm
  have htrans := logChain_congr_proj hlog 0 (offEnd file m)
  rw [hchain] at htrans
  exact logChain_ok _ 0 (offEnd file m) htrans

/-- Claim C2: for every complete run, the candidate records produced by the
extraction pipeline (drain-loop extraction plus terminal flush) are exactly
the blank-line-delimited paragraphs of the input, each exactly once and
byte-for-byte, regardless of where chunk boundaries fall. -/
theorem C2_record_completeness (matcher : List Nat → Bool) (file : List Nat)
    (trace : List Event) (h : Complete matcher file trace) :
    (program_run matcher file trace).records = paragraphsSpec file := by
  obtain ⟨-, -, hrec, -⟩ := program_run_complete matcher file h
  obtain ⟨hcarry, hrecords, -⟩ := seq_pp_total matcher file
  rw [hrec, hrecords, hcarry]
  exact pp_records_spec matcher file.length file rfl

/-- Witness for claim C2 at the scenario input with a complete two-worker
trace. -/
theorem C2_record_completeness_witness :
    (program_run (wordMatch alphaPat) alphaFile alphaTrace).records =
      paragraphsSpec alphaFile :=
  C2_record_completeness (wordMatch alphaPat) alphaFile alphaTrace (by decide)

/-- Counterexample to claim C3 as stated: on a file whose first line is longer
than the read window, the first assigned range (not the last one) ends in the
middle of that line, at a letter rather than a newline. -/
theorem C3_counterexample :
    ¬(∀ (file : List Nat) (i : Nat) (ob : Nat × Nat),
      i + 1 < (chunksFrom file 0).length → (chunksFrom file 0)[i]? = some ob →
      file[ob.1 + ob.2 - 1]? = some NL) := by
  intro h
  have hinst := h longLineFile 0 (0, 8192)
    (by rw [longLineFile_chunks]; decide)
    (by rw [longLineFile_chunks]; rfl)
  rw [show ((0, 8192) : Nat × Nat).1 + ((0, 8192) : Nat × Nat).2 - 1 = 8191
    from by decide] at hinst
  rw [longLineFile_get] at hinst
  simp [NL] at hinst

/-- Claim C3 as amended: every assigned range except possibly the very last
ends exactly at a newline byte, unless that range is a full read window that
contains no newline at all (a line longer than the window). -/
theorem C3_amended_line_boundary (file : List Nat) (i : Nat) (ob : Nat × Nat)
    (hlast : i + 1 < (chunksFrom file 0).length)
    (hob : (chunksFrom file 0)[i]? = some ob) :
    file[ob.1 + ob.2 - 1]? = some NL ∨
    (ob.2 = BUFFER_SIZE ∧ NL ∉ (file.drop ob.1).take ob.2) := by
  have hi : i < (chunksFrom file 0).length := by omega
  have hac := AC_get hi
  rw [hob] at hac
  have hob' := Option.some_inj.mp hac
  subst hob'
  have hwlen := window_length file (offEnd file i)
  have hWne : ((file.drop (offEnd file i)).take BUFFER_SIZE).length ≠ 0 := by
    intro hc
    have hwe : ((file.drop (offEnd file i)).take BUFFER_SIZE).length = 0 ↔
        i = (chunksFrom file 0).length := window_empty_iff (by omega)
    have := hwe.mp hc
    omega
  cases hs : scanLastNL ((file.drop (offEnd file i)).take BUFFER_SIZE) with
  | some j =>
    left
    have hj1 := scanLastNL_pos hs
    have hj2 := scanLastNL_le hs
    have hget := scanLastNL_get hs
    have hfile : ((file.drop (offEnd file i)).take BUFFER_SIZE)[j - 1]? =
        file[offEnd file i + (j - 1)]? := by
      rw [List.getElem?_take, if_pos (by omega : j - 1 < BUFFER_SIZE),
        List.getElem?_drop]
    rw [hfile] at hget
    have hb : coordinatorBytes ((file.drop (offEnd file i)).take BUFFER_SIZE) =
        if j < ((file.drop (offEnd file i)).take BUFFER_SIZE).length then j
        else ((file.drop (offEnd file i)).take BUFFER_SIZE).length := by
      rw [coordinatorBytes_spec, hs]
    by_cases hjlt : j < ((file.drop (offEnd file i)).take BUFFER_SIZE).length
    · rw [if_pos hjlt] at hb
      show file[(offEnd file i, coordinatorBytes _).1 +
        (offEnd file i, coordinatorBytes _).2 - 1]? = some NL
      rw [show ((offEnd file i, coordinatorBytes ((file.drop (offEnd file i)).take
        BUFFER_SIZE)).1 + (offEnd file i, coordinatorBytes ((file.drop
        (offEnd file i)).take BUFFER_SIZE)).2 - 1) = offEnd file i +
        coordinatorBytes ((file.drop (offEnd file i)).take BUFFER_SIZE) - 1 from rfl]
      rw [hb]
      rw [show offEnd file i + j - 1 = offEnd file i + (j - 1) from by omega]
      exact hget
    · have hj : j = ((file.drop (offEnd file i)).take BUFFER_SIZE).length := by omega
      rw [if_neg hjlt] at hb
      show file[offEnd file i +
        coordinatorBytes ((file.drop (offEnd file i)).take BUFFER_SIZE) - 1]? = some NL
      rw [hb, ← hj]
      rw [show offEnd file i + j - 1 = offEnd file i + (j - 1) from by omega]
      exact hget
  | none =>
    right
    have hb : coordinatorBytes ((file.drop (offEnd file i)).take BUFFER_SIZE) =
        ((file.drop (offEnd file i)).take BUFFER_SIZE).length := by
      rw [coordinatorBytes_spec, hs]
    have hbs : ((file.drop (offEnd file i)).take BUFFER_SIZE).length = BUFFER_SIZE := by
      by_contra hne
      have hlt : ((file.drop (offEnd file i)).take BUFFER_SIZE).length < BUFFER_SIZE := by
        omega
      have hrem : ((file.drop (offEnd file i)).take BUFFER_SIZE).length =
          file.length - offEnd file i := by
        omega
      obtain ⟨ob₂, hob₂⟩ : ∃ ob₂, (chunksFrom file 0)[i + 1]? = some ob₂ :=
        ⟨(chunksFrom file 0)[i + 1], List.getElem?_eq_getElem hlast⟩
      have hend : offEnd file (i + 1) =
          offEnd file i + coordinatorBytes ((file.drop (offEnd file i)).take
            BUFFER_SIZE) :=
        offEnd_succ (AC_get hi)
      have hlen1 : offEnd file (i + 1) = file.length := by
        rw [hend, hb]
        have hle := offEnd_le_len file i (by omega)
        omega
      have hltN : offEnd file (i + 1) < offEnd file (chunksFrom file 0).length :=
        offEnd_lt (by omega) (Nat.le_refl _)
      rw [offEnd_total, hlen1] at hltN
      omega
    constructor
    · show coordinatorBytes ((file.drop (offEnd file i)).take BUFFER_SIZE) = BUFFER_SIZE
      rw [hb, hbs]
    · show NL ∉ (file.drop (offEnd file i)).take
        (coordinatorBytes ((file.drop (offEnd file i)).take BUFFER_SIZE))
      rw [hb, hbs]
      exact scanLastNL_none hs

/-- Witness for the amended claim C3 at a concrete two-chunk input whose first
assigned range ends at a newline. -/
theorem C3_amended_line_boundary_witness :
    xxFile[((0, 3) : Nat × Nat).1 + ((0, 3) : Nat × Nat).2 - 1]? = some NL ∨
    (((0, 3) : Nat × Nat).2 = BUFFER_SIZE ∧
      NL ∉ (xxFile.drop ((0, 3) : Nat × Nat).1).take ((0, 3) : Nat × Nat).2) :=
  C3_amended_line_boundary xxFile 0 (0, 3) (by decide) (by decide)

/-- Counterexample to claim C4 as stated: on the scenario input with two
workers, the whole 31-byte input fits in one read window, so the log has
exactly one data row, not two or more. -/
theorem C4_counterexample :
    Complete (wordMatch alphaPat) alphaFile alphaTrace ∧
    (alphaTrace.all fun e =>
      match e with
      | Event.request pid _ => decide (pid < 2)
      | Event.deliver _ => true) = true ∧
    ¬(2 ≤ (program_run (wordMatch alphaPat) alphaFile alphaTrace).log.length) := by
  refine ⟨by decide, by decide, by decide⟩

/-- Claim C4 as amended: for every complete two-worker run on the scenario
input with pattern alpha, standard output is exactly the first two paragraphs
in order, the log has exactly one data row, whose byte count 31 is the full
input length and whose found flag is 1, and the third paragraph appears in no
log row: its non-match is visible only in the flush step, whose match flag is
false. -/
theorem C4_amended_scenario (trace : List Event)
    (h : Complete (wordMatch alphaPat) alphaFile trace)
    (hworkers : (trace.all fun e =>
      match e with
      | Event.request pid _ => decide (pid < 2)
      | Event.deliver _ => true) = true) :
    (program_run (wordMatch alphaPat) alphaFile trace).out =
      [97, 108, 112, 104, 97, 32, 98, 101, 116, 97, 10, 10,
       103, 97, 109, 109, 97, 32, 97, 108, 112, 104, 97, 10, 10] ∧
    (program_run (wordMatch alphaPat) alphaFile trace).log.map proj3 =
      [(0, 31, true)] ∧
    (program_run (wordMatch alphaPat) alphaFile trace).log.length = 1 ∧
    (program_run (wordMatch alphaPat) alphaFile trace).flushFound = false := by
  obtain ⟨hlog, hout, -, hflush⟩ := program_run_complete (wordMatch alphaPat) alphaFile h
  have h1 : (seq_state (wordMatch alphaPat) alphaFile
      (chunksFrom alphaFile 0).length).log.map proj3 = [(0, 31, true)] := by decide
  have h2 : (seq_state (wordMatch alphaPat) alphaFile
        (chunksFrom alphaFile 0).length).out ++
      (flush_remaining_paragraph (wordMatch alphaPat)
        (seq_state (wordMatch alphaPat) alphaFile
          (chunksFrom alphaFile 0).length).carry).2 =
      [97, 108, 112, 104, 97, 32, 98, 101, 116, 97, 10, 10,
       103, 97, 109, 109, 97, 32, 97, 108, 112, 104, 97, 10, 10] := by decide
  have h3 : (flush_remaining_paragraph (wordMatch alphaPat)
      (seq_state (wordMatch alphaPat) alphaFile
        (chunksFrom alphaFile 0).length).carry).1 = false := by decide
  refine ⟨?_, ?_, ?_, ?_⟩
  · rw [hout, h2]
  · rw [hlog, h1]
  · have hlen : ((program_run (wordMatch alphaPat) alphaFile trace).log.map
        proj3).length = 1 := by
      rw [hlog, h1]
      rfl
    rw [List.length_map] at hlen
    exact hlen
  · rw [hflush, h3]

/-- Witness for the amended claim C4 at the concrete complete two-worker
trace. -/
theorem C4_amended_scenario_witness :
    (program_run (wordMatch alphaPat) alphaFile alphaTrace).log.map proj3 =
      [(0, 31, true)] :=
  (C4_amended_scenario alphaTrace (by decide) (by decide)).2.1

/-- Counterexample to claim C5 as stated: two complete runs on the same
two-byte input whose only chunk is taken by worker 0 in one run and worker 1
in the other produce identical standard output and identical timing columns,
yet their log contents differ in the process_id column, which the claim does
not allow to vary. -/
theorem C5_counterexample :
    Complete (wordMatch aPat) smallFile smallTrace0 ∧
    Complete (wordMatch aPat) smallFile smallTrace1 ∧
    (program_run (wordMatch aPat) smallFile smallTrace0).out =
      (program_run (wordMatch aPat) smallFile smallTrace1).out ∧
    (program_run (wordMatch aPat) smallFile smallTrace0).log.map
        (fun e => e.elapsed_time) =
      (program_run (wordMatch aPat) smallFile smallTrace1).log.map
        (fun e => e.elapsed_time) ∧
    (program_run (wordMatch aPat) smallFile smallTrace0).log.map dropElapsed ≠
      (program_run (wordMatch aPat) smallFile smallTrace1).log.map dropElapsed := by
  refine ⟨by decide, by decide, by decide, by decide, by decide⟩

/-- Claim C5 as amended: two complete runs with the same pattern and input
produce byte-identical standard output, candidate records and flush flag, and
log contents that agree on the file_offset, bytes_read and found columns;
only the process_id and elapsed_time columns may vary with scheduling. -/
theorem C5_amended_determinism (matcher : List Nat → Bool) (file : List Nat)
    (t1 t2 : List Event) (h1 : Complete matcher file t1)
    (h2 : Complete matcher file t2) :
    (program_run matcher file t1).out = (program_run matcher file t2).out ∧
    (program_run matcher file t1).log.map proj3 =
      (program_run matcher file t2).log.map proj3 ∧
    (program_run matcher file t1).records = (program_run matcher file t2).records ∧
    (program_run matcher file t1).flushFound =
      (program_run matcher file t2).flushFound := by
  obtain ⟨hl1, ho1, hr1, hf1⟩ := program_run_complete matcher file h1
  obtain ⟨hl2, ho2, hr2, hf2⟩ := program_run_complete matcher file h2
  exact ⟨by rw [ho1, ho2], by rw [hl1, hl2], by rw [hr1, hr2], by rw [hf1, hf2]⟩

/-- Witness for the amended claim C5 at two concrete complete traces that use
different workers. -/
theorem C5_amended_determinism_witness :
    (program_run (wordMatch aPat) smallFile smallTrace0).out =
      (program_run (wordMatch aPat) smallFile smallTrace1).out :=
  (C5_amended_determinism (wordMatch aPat) smallFile smallTrace0 smallTrace1
    (by decide) (by decide)).1

/-- Claim C6: a worker's trim keeps the entire read when it contains no
newline; the usable count never exceeds the read; and a worker that reads a
nonempty range never reports zero bytes (the trimmed-to-zero fallback). -/
theorem C6_worker_trim (buffer : List Nat) :
    (NL ∉ buffer → workerUsable buffer = buffer.length) ∧
    (buffer ≠ [] → 1 ≤ workerUsable buffer) ∧
    workerUsable buffer ≤ buffer.length :=
  ⟨workerUsable_no_newline, workerUsable_pos, workerUsable_le buffer⟩

/-- Witness for claim C6 at a one-byte read without a newline. -/
theorem C6_worker_trim_witness :
    workerUsable [97] = [97].length ∧ 1 ≤ workerUsable [97] :=
  ⟨(C6_worker_trim [97]).1 (by decide), (C6_worker_trim [97]).2.1 (by decide)⟩

theorem flush_one_delim (matcher : List Nat → Bool) {carry : List Nat}
    (hfdn : find_double_newline carry = none) :
    (flush_remaining_paragraph matcher carry).2 = [] ∨
    ((flush_remaining_paragraph matcher carry).2.getLast? = some NL ∧
      (flush_remaining_paragraph matcher carry).2.dropLast.getLast? ≠ some NL) := by
  rcases flush_shape matcher hfdn with h | ⟨r, hr, hne⟩
  · left
    exact h
  · right
    rw [hr]
    constructor
    · rw [List.getLast?_concat]
    · rw [List.dropLast_concat]
      exact hne

theorem flush_verbatim (matcher : List Nat → Bool) (carry : List Nat)
    (hne : (flush_remaining_paragraph matcher carry).2 ≠ []) :
    (if carry.getLast? = some NL
     then (flush_remaining_paragraph matcher carry).2 = carry
     else (flush_remaining_paragraph matcher carry).2 = carry ++ [NL]) := by
  by_cases hc : carry.length = 0
  · exact absurd (by simp [flush_remaining_paragraph, hc]) hne
  · by_cases hm : matcher carry
    · by_cases hlast : carry.getLast? = some NL
      · rw [if_pos hlast]
        simp [flush_remaining_paragraph, hc, hm, hlast]
      · rw [if_neg hlast]
        simp [flush_remaining_paragraph, hc, hm, hlast]
    · exact absurd (by simp [flush_remaining_paragraph, hc, hm]) hne

/-- Claim C7: in every run, standard output is exactly the run's matched
candidate records (the tested records of the drain phase that the matcher
accepted, in order), each written verbatim and followed by exactly two newline
bytes, followed by the terminal flush's output; the flush output, when
nonempty, is the final carry-buffer record verbatim with a newline appended
only if it does not already end with one, and it carries exactly one trailing
newline byte. -/
theorem C7_output_shape (matcher : List Nat → Bool) (file : List Nat)
    (trace : List Event) :
    (program_run matcher file trace).out =
      ((((sys_run matcher file trace).coord.records.filter matcher).map
        (· ++ [NL, NL])).flatten) ++
        (flush_remaining_paragraph matcher (sys_run matcher file trace).coord.carry).2 ∧
    ((flush_remaining_paragraph matcher (sys_run matcher file trace).coord.carry).2 = [] ∨
      ((flush_remaining_paragraph matcher
          (sys_run matcher file trace).coord.carry).2.getLast? = some NL ∧
        (flush_remaining_paragraph matcher
          (sys_run matcher file trace).coord.carry).2.dropLast.getLast? ≠ some NL)) ∧
    ((flush_remaining_paragraph matcher (sys_run matcher file trace).coord.carry).2 ≠ [] →
      (if (sys_run matcher file trace).coord.carry.getLast? = some NL
       then (flush_remaining_paragraph matcher
          (sys_run matcher file trace).coord.carry).2 =
         (sys_run matcher file trace).coord.carry
       else (flush_remaining_paragraph matcher
          (sys_run matcher file trace).coord.carry).2 =
         (sys_run matcher file trace).coord.carry ++ [NL])) := by
  obtain ⟨n, m, I, J, hnN, hmn, hassign, hfin, hJ, hCoord, hperm⟩ :=
    sysInv_run matcher file trace
  have hpop := coordInv_pop_none hCoord
  obtain ⟨hfa, hpw, hbounds, hmN, hproj⟩ := hCoord
  obtain ⟨hcarry, hout, hrecords, hlog, hnext⟩ := hproj
  obtain ⟨hseqcarry, hseqrecords, hseqout⟩ := seq_pp matcher file m hmN
  have hccarry : (sys_run matcher file trace).coord.carry =
      (process_paragraphs matcher (file.take (offEnd file m))).carry := by
    rw [hcarry, hseqcarry]
  have hcrecords : (sys_run matcher file trace).coord.records =
      (process_paragraphs matcher (file.take (offEnd file m))).records := by
    rw [hrecords, hseqrecords]
  have hcout : (sys_run matcher file trace).coord.out =
      (process_paragraphs matcher (file.take (offEnd file m))).printed := by
    rw [hout, hseqout]
  have hfdn : find_double_newline (sys_run matcher file trace).coord.carry = none := by
    rw [hccarry]
    exact pp_carry_fdn matcher (file.take (offEnd file m)).length _ rfl
  have hprint := pp_printed matcher (file.take (offEnd file m)).length
    (file.take (offEnd file m)) rfl
  refine ⟨?_, flush_one_delim matcher hfdn, flush_verbatim matcher _⟩
  have hrunout : (program_run matcher file trace).out =
      (sys_run matcher file trace).coord.out ++
        (flush_remaining_paragraph matcher
          (sys_run matcher file trace).coord.carry).2 := by
    simp only [program_run, finalize, drain_of_pop_none hpop]
  rw [hrunout, hcout, hprint, hcrecords]

/-- Claim C8: along every trace the processing cursor never exceeds the
assignment cursor; both cursors are monotone under every step; a work request
never moves the processing cursor; and a delivery never moves the assignment
cursor. -/
theorem C8_cursor_invariant :
    (∀ (matcher : List Nat → Bool) (file : List Nat) (trace : List Event),
      (sys_run matcher file trace).coord.next_offset_to_process ≤
        (sys_run matcher file trace).next_offset_to_assign) ∧
    (∀ (matcher : List Nat → Bool) (file : List Nat) (s : SysState) (e : Event),
      s.next_offset_to_assign ≤ (sys_step matcher file s e).next_offset_to_assign) ∧
    (∀ (matcher : List Nat → Bool) (file : List Nat) (s : SysState) (e : Event),
      s.coord.next_offset_to_process ≤
        (sys_step matcher file s e).coord.next_offset_to_process) ∧
    (∀ (matcher : List Nat → Bool) (file : List Nat) (s : SysState) (pid el : Nat),
      (sys_step matcher file s (.request pid el)).coord.next_offset_to_process =
        s.coord.next_offset_to_process) ∧
    (∀ (matcher : List Nat → Bool) (file : List Nat) (s : SysState) (k : Nat),
      (sys_step matcher file s (.deliver k)).next_offset_to_assign =
        s.next_offset_to_assign) := by
  have hreqcoord : ∀ (matcher : List Nat → Bool) (file : List Nat) (s : SysState)
      (pid el : Nat), (sys_step matcher file s (.request pid el)).coord = s.coord := by
    intro matcher file s pid el
    show (if s.finished_assignments then s else _).coord = s.coord
    split
    · rfl
    · split
      · rfl
      · rfl
  have hdelassign : ∀ (matcher : List Nat → Bool) (file : List Nat) (s : SysState)
      (k : Nat), (sys_step matcher file s (.deliver k)).next_offset_to_assign =
        s.next_offset_to_assign := by
    intro matcher file s k
    cases hk : s.inflight[k]? with
    | none => simp [sys_step, hk]
    | some c => simp [sys_step, hk]
  have hdrainmono : ∀ (matcher : List Nat → Bool) (fuel : Nat) (s : CoordState),
      s.next_offset_to_process ≤ (drain_fuel matcher fuel s).next_offset_to_process := by
    intro matcher fuel
    induction fuel with
    | zero => intro s; exact Nat.le_refl _
    | succ fuel ih =>
      intro s
      cases hpop : pop_expected_chunk s.pending s.next_offset_to_process with
      | none => simp [drain_fuel, hpop]
      | some cr =>
        obtain ⟨c, rest⟩ := cr
        obtain ⟨hpend, hoff⟩ := pop_some hpop
        have hstep := ih (drain_body matcher s c rest)
        have hbody : (drain_body matcher s c rest).next_offset_to_process =
            c.file_offset + c.bytes_read := rfl
        simp only [drain_fuel, hpop]
        rw [hbody] at hstep
        omega
  refine ⟨?_, ?_, ?_, fun matcher file s pid el => by rw [hreqcoord], hdelassign⟩
  · intro matcher file trace
    obtain ⟨n, m, I, J, hnN, hmn, hassign, hfin, hJ, hCoord, hperm⟩ :=
      sysInv_run matcher file trace
    obtain ⟨-, -, -, -, hproj⟩ := hCoord
    have hnext : (sys_run matcher file trace).coord.next_offset_to_process =
        offEnd file m := by
      rw [hproj.2.2.2.2, (seq_pending_nextProc matcher file m).2]
    rw [hnext, hassign]
    exact offEnd_mono hmn
  · intro matcher file s e
    cases e with
    | request pid el =>
      by_cases hf : s.finished_assignments = true
      · have h : sys_step matcher file s (.request pid el) = s := by
          simp [sys_step, hf]
        rw [h]
      · by_cases hw : ((file.drop s.next_offset_to_assign).take BUFFER_SIZE).length = 0
        · have h : sys_step matcher file s (.request pid el) =
              { s with finished_assignments := true } := by
            simp [sys_step, hf, hw]
          rw [h]
        · have h : sys_step matcher file s (.request pid el) =
              { s with
                next_offset_to_assign := s.next_offset_to_assign +
                  coordinatorBytes ((file.drop s.next_offset_to_assign).take BUFFER_SIZE),
                inflight := s.inflight ++
                  [worker_result file pid s.next_offset_to_assign
                    (coordinatorBytes ((file.drop s.next_offset_to_assign).take
                      BUFFER_SIZE)) el] } := by
            simp [sys_step, hf, hw]
            rw [window_length] at hw
            simp only [BUFFER_SIZE] at hw ⊢
            omega
          rw [h]
          show s.next_offset_to_assign ≤ s.next_offset_to_assign + _
          exact Nat.le_add_right _ _
    | deliver k => rw [hdelassign]
  · intro matcher file s e
    cases e with
    | request pid el => rw [hreqcoord]
    | deliver k =>
      cases hk : s.inflight[k]? with
      | none => simp [sys_step, hk]
      | some c =>
        have hstep : (sys_step matcher file s (.deliver k)).coord =
            coord_step matcher s.coord c := by
          simp [sys_step, hk]
        rw [hstep]
        have hdm : ∀ s' : CoordState, s'.next_offset_to_process ≤
            (drain matcher s').next_offset_to_process := fun s' =>
          hdrainmono matcher s'.pending.length s'
        exact hdm ({ s.coord with pending := insert_chunk_sorted c s.coord.pending })

/-- Claim C9: the log has exactly one data line per consumed chunk and none
for the terminal flush; on a concrete input whose only match is found by the
flush, the match is printed to standard output while every log line carries
found flag 0. -/
theorem C9_flush_not_logged :
    (∀ (matcher : List Nat → Bool) (file : List Nat) (trace : List Event),
      Complete matcher file trace →
      (program_run matcher file trace).log.length = (chunksFrom file 0).length) ∧
    ((program_run (wordMatch alphaPat) xxFile xxTrace).log.map (fun e => e.found) =
      [false, false] ∧
    (program_run (wordMatch alphaPat) xxFile xxTrace).flushFound = true ∧
    (program_run (wordMatch alphaPat) xxFile xxTrace).out =
      [120, 120, 10, 97, 108, 112, 104, 97, 10] ∧
    (chunksFrom xxFile 0).length = 2) := by
  constructor
  · intro matcher file trace h
    obtain ⟨hlog, -, -, -⟩ := program_run_complete matcher file h
    have hlen : ((program_run matcher file trace).log.map proj3).length =
        ((seq_state matcher file (chunksFrom file 0).length).log.map proj3).length := by
      rw [hlog]
    rw [List.length_map, List.length_map] at hlen
    rw [hlen]
    exact seq_log_length matcher file (chunksFrom file 0).length (Nat.le_refl _)
  · refine ⟨by decide, by decide, by decide, by decide⟩

/-- Witness for claim C9's universal part at a concrete complete trace. -/
theorem C9_flush_not_logged_witness :
    (program_run (wordMatch alphaPat) xxFile xxTrace).log.length =
      (chunksFrom xxFile 0).length :=
  C9_flush_not_logged.1 (wordMatch alphaPat) xxFile xxTrace (by decide)

/-- Claim C10: the extraction loop of process_paragraphs terminates after at
most half the buffer length iterations (it is a total function here, and each
extracted record consumes at least two bytes), leaving a carry no longer than
the input. -/
theorem C10_extraction_bounded (matcher : List Nat → Bool) (c : List Nat) :
    (process_paragraphs matcher c).records.length ≤ c.length / 2 ∧
    2 * (process_paragraphs matcher c).records.length +
      (process_paragraphs matcher c).carry.length ≤ c.length := by
  have h := pp_size matcher c.length c rfl
  constructor
  · rw [Nat.le_div_iff_mul_le (by decide : 0 < 2)]
    omega
  · exact h

end Proyecto1
